import Mathlib

/-!
Verification of the A* pathfinding module (src/pathfinding/astar/assist.py).

The module contains:
* a binary-heap priority queue (Python heapq, modelled by the reference
  pure-Python implementation of heappush/heappop);
* `Node`, the per-cell search state with a predecessor link;
* `get_path`, backtracking path reconstruction;
* `find_optimal_cost`, the Dijkstra-style reference oracle;
* `is_valid_path`, the structural path validator;
* `astar_correct` and `astar_buggy`, the two engines under test;
* `run_base_case` and `run_inductive_step` of the AStarProof harness.

Python numbers appearing in costs are integers or the float infinity; they
are modelled by `ECost`.  The unbounded `while` loops are modelled with an
explicit fuel parameter: a result `none` means the fuel ran out, `some r`
means the loop returned `r` (which the real loop, running unboundedly,
would also return).
-/

namespace AStarAssist

/-- An integer cost or the float infinity, the two kinds of numbers the
Python code stores in `g`, `f`, `visited` and returned costs. -/
inductive ECost where
  | fin (n : Int)
  | inf
deriving DecidableEq, Repr

/-- Python `<` on costs: finite values compare as integers, and every
finite value is less than infinity. -/
def ECost.blt : ECost → ECost → Bool
  | .fin a, .fin b => decide (a < b)
  | .fin _, .inf => true
  | .inf, _ => false

/-- Python `+` on costs: adding infinity on either side gives infinity. -/
def ECost.add : ECost → ECost → ECost
  | .fin a, .fin b => .fin (a + b)
  | _, _ => .inf

/-- The order on costs: every cost is at most infinity, and finite costs
compare as integers. -/
def ECost.le : ECost → ECost → Prop
  | _, .inf => True
  | .fin a, .fin b => a ≤ b
  | .inf, .fin _ => False

/-! ### The heapq priority queue

`heapq.heappush` and `heapq.heappop` as in CPython's reference
implementation (`_siftdown` / `_siftup`), over a Lean list standing for
the Python list, parametrised by the element order `lt` (Python `<`)
and a default element `d` used only for out-of-range reads, which the
real code never performs. -/

/-- The iteration of CPython `heapq._siftdown`, structurally recursive on
a step counter.  The loop runs only while `startpos < pos` and `pos`
strictly decreases, so with `n ≥ pos` the counter never runs out: when
`n = 0` and `pos ≤ n` the guard `startpos < pos` is false anyway, and the
zero branch coincides with the loop's exit branch. -/
def siftdownGo (lt : α → α → Bool) (d : α) :
    Nat → List α → Nat → Nat → α → List α
  | 0, heap, _, pos, newitem => heap.set pos newitem
  | n + 1, heap, startpos, pos, newitem =>
    if startpos < pos then
      let parentpos := (pos - 1) / 2
      let parent := heap.getD parentpos d
      if lt newitem parent then
        siftdownGo lt d n (heap.set pos parent) startpos parentpos newitem
      else
        heap.set pos newitem
    else
      heap.set pos newitem

/-- CPython `heapq._siftdown(heap, startpos, pos)` with `newitem = heap[pos]`
passed explicitly (the slot at `pos` is only ever written, never read). -/
def siftdown (lt : α → α → Bool) (d : α) (heap : List α) (startpos pos : Nat)
    (newitem : α) : List α :=
  siftdownGo lt d pos heap startpos pos newitem

/-- The child-promoting iteration of CPython `heapq._siftup`, structurally
recursive on a step counter.  The loop runs only while `2*pos+1 < endpos`
and `endpos - pos` strictly decreases, so with `n ≥ endpos - pos` the
counter never runs out: when `n = 0` and `endpos ≤ pos` the guard is false
anyway, and the zero branch coincides with the loop's exit branch. -/
def siftupGo (lt : α → α → Bool) (d : α) :
    Nat → List α → Nat → List α × Nat
  | 0, heap, pos => (heap, pos)
  | n + 1, heap, pos =>
    let endpos := heap.length
    let childpos := 2 * pos + 1
    if childpos < endpos then
      let rightpos := childpos + 1
      let childpos2 :=
        if rightpos < endpos ∧
            ¬ lt (heap.getD childpos d) (heap.getD rightpos d)
        then rightpos else childpos
      siftupGo lt d n (heap.set pos (heap.getD childpos2 d)) childpos2
    else
      (heap, pos)

/-- The child-promoting loop of CPython `heapq._siftup`: repeatedly move the
smaller child up until a leaf position is reached; returns the final heap
and leaf position. -/
def siftupLoop (lt : α → α → Bool) (d : α) (heap : List α) (pos : Nat) :
    List α × Nat :=
  siftupGo lt d heap.length heap pos

/-- CPython `heapq._siftup(heap, pos)` with `newitem = heap[pos]` passed
explicitly: bubble the hole down to a leaf, place `newitem` there, and
restore the invariant with `siftdown`. -/
def siftup (lt : α → α → Bool) (d : α) (heap : List α) (startpos pos : Nat)
    (newitem : α) : List α :=
  let hp := siftupLoop lt d heap pos
  siftdown lt d (hp.1.set hp.2 newitem) startpos hp.2 newitem

/-- CPython `heapq.heappush(heap, item)`: append, then sift down from the
last position. -/
def heappush (lt : α → α → Bool) (d : α) (heap : List α) (item : α) :
    List α :=
  siftdown lt d (heap ++ [item]) 0 heap.length item

/-- CPython `heapq.heappop(heap)`: pop the last element; if the heap is
still non-empty, return the root and sift the last element down from the
root.  `none` models the IndexError on an empty heap (never reached by the
loops, which test emptiness first). -/
def heappop (lt : α → α → Bool) (d : α) (heap : List α) :
    Option (α × List α) :=
  match heap.getLast? with
  | none => none
  | some lastelt =>
    let rest := heap.dropLast
    if rest.isEmpty then
      some (lastelt, rest)
    else
      some (rest.getD 0 d, siftup lt d (rest.set 0 lastelt) 0 0 lastelt)

/-- The binary-heap shape invariant heapq maintains: no element is less
than its parent. -/
def heapProp (lt : α → α → Bool) (d : α) (l : List α) : Prop :=
  ∀ i : Nat, 0 < i → i < l.length →
    lt (l.getD i d) (l.getD ((i - 1) / 2) d) = false

/-! ### Grids, nodes and path reconstruction -/

/-- A grid is a list of rows of integer cell costs; `-1` marks an
impassable cell. -/
abbrev Grid := List (List Int)

/-- `grid[x][y]` for in-bounds non-negative indices (the only accesses the
claims are about; Python's negative-index wrapping is out of scope). -/
def gridGet (grid : Grid) (x y : Int) : Int :=
  (grid.getD x.toNat []).getD y.toNat 0

/-- `len(grid)`. -/
def rowsOf (grid : Grid) : Int := grid.length

/-- `len(grid[0])`. -/
def colsOf (grid : Grid) : Int := (grid.getD 0 []).length

/-- `0 <= x < len(grid) and 0 <= y < len(grid[0])`. -/
def inBounds (grid : Grid) (c : Int × Int) : Prop :=
  0 ≤ c.1 ∧ c.1 < rowsOf grid ∧ 0 ≤ c.2 ∧ c.2 < colsOf grid

instance (grid : Grid) (c : Int × Int) : Decidable (inBounds grid c) := by
  unfold inBounds; infer_instance

/-- The `Node` class: coordinates, the cell's own traversal cost, `g`, `h`,
`f`, and the predecessor link used for path reconstruction.  A freshly
constructed node has `g = f = inf`, `h = 0`, no parent. -/
inductive Node : Type where
  | mk (x y cost : Int) (g : ECost) (h : Int) (f : ECost)
      (parent : Option Node)

def Node.x : Node → Int
  | .mk x _ _ _ _ _ _ => x

def Node.y : Node → Int
  | .mk _ y _ _ _ _ _ => y

def Node.cost : Node → Int
  | .mk _ _ cost _ _ _ _ => cost

def Node.g : Node → ECost
  | .mk _ _ _ g _ _ _ => g

def Node.h : Node → Int
  | .mk _ _ _ _ h _ _ => h

def Node.f : Node → ECost
  | .mk _ _ _ _ _ f _ => f

def Node.parent : Node → Option Node
  | .mk _ _ _ _ _ _ parent => parent

/-- `Node.__lt__`: compare by `f` alone. -/
def nodeLt (a b : Node) : Bool := ECost.blt a.f b.f

/-- Default node for the heap's out-of-range reads (never used in-range). -/
def dNode : Node := .mk 0 0 0 .inf 0 .inf none

/-- Default tuple for the oracle heap's out-of-range reads. -/
def dTup : Int × (Int × Int) := (0, (0, 0))

/-- Python `<` on `(cost, (x, y))` tuples: lexicographic. -/
def tupLt (a b : Int × (Int × Int)) : Bool :=
  decide (a.1 < b.1 ∨ (a.1 = b.1 ∧
    (a.2.1 < b.2.1 ∨ (a.2.1 = b.2.1 ∧ a.2.2 < b.2.2))))

/-- The move offsets `[(0, 1), (0, -1), (1, 0), (-1, 0)]`. -/
def possible_moves : List (Int × Int) := [(0, 1), (0, -1), (1, 0), (-1, 0)]

/-- `get_neighbors(grid, node)`: fresh nodes for each in-bounds passable
4-neighbour, in move order. -/
def get_neighbors (grid : Grid) (node : Node) : List Node :=
  possible_moves.filterMap fun dm =>
    let nx := node.x + dm.1
    let ny := node.y + dm.2
    if 0 ≤ nx ∧ nx < rowsOf grid ∧ 0 ≤ ny ∧ ny < colsOf grid ∧
        gridGet grid nx ny ≠ -1 then
      some (.mk nx ny (gridGet grid nx ny) .inf 0 .inf none)
    else
      none

/-- `get_path(node)`: follow parents to the root, then reverse, giving the
root-first coordinate sequence. -/
def get_path : Node → List (Int × Int)
  | .mk x y _ _ _ _ none => [(x, y)]
  | .mk x y _ _ _ _ (some p) => get_path p ++ [(x, y)]

/-! ### The reference oracle `find_optimal_cost` -/

/-- One iteration of the oracle's `for dx, dy in moves` loop: try to relax
the neighbour of the popped `(cost, (x, y))` in direction `dm`, threading
the heap and the `visited` map (a Python dict modelled as a total function
whose default, as in `visited.get(…, inf)`, is infinity). -/
def findRelax (grid : Grid) (cost : Int) (x y : Int)
    (qv : List (Int × (Int × Int)) × ((Int × Int) → ECost))
    (dm : Int × Int) :
    List (Int × (Int × Int)) × ((Int × Int) → ECost) :=
  let nx := x + dm.1
  let ny := y + dm.2
  if 0 ≤ nx ∧ nx < rowsOf grid ∧ 0 ≤ ny ∧ ny < colsOf grid ∧
      gridGet grid nx ny ≠ -1 then
    let new_cost := cost + gridGet grid nx ny
    if ECost.blt (.fin new_cost) (qv.2 (nx, ny)) then
      (heappush tupLt dTup qv.1 (new_cost, (nx, ny)),
       fun c => if c = (nx, ny) then .fin new_cost else qv.2 c)
    else qv
  else qv

/-- The body of the oracle's `for dx, dy in moves` loop as a fold of the
relaxations over the four moves. -/
def findStep (grid : Grid) (cost : Int) (x y : Int)
    (qv : List (Int × (Int × Int)) × ((Int × Int) → ECost)) :
    List (Int × (Int × Int)) × ((Int × Int) → ECost) :=
  possible_moves.foldl (findRelax grid cost x y) qv

/-- The oracle's `while queue` loop, with fuel. -/
def findLoop (grid : Grid) (endc : Int × Int) :
    Nat → List (Int × (Int × Int)) → ((Int × Int) → ECost) → Option ECost
  | 0, _, _ => none
  | fuel + 1, queue, visited =>
    match heappop tupLt dTup queue with
    | none => some .inf
    | some ((cost, xy), rest) =>
      if xy = endc then some (.fin cost)
      else
        let qv := findStep grid cost xy.1 xy.2 (rest, visited)
        findLoop grid endc fuel qv.1 qv.2

/-- `find_optimal_cost(grid, start, end)`: uniform-cost search from
`queue = [(0, start)]`, `visited = {start: 0}`; returns the popped cost of
`end`, or infinity when the queue empties first. -/
def find_optimal_cost (grid : Grid) (startc endc : Int × Int) (fuel : Nat) :
    Option ECost :=
  findLoop grid endc fuel [(0, startc)]
    (fun c => if c = startc then .fin 0 else .inf)

/-! ### The path validator `is_valid_path` -/

/-- `is_valid_path(grid, path)`: an empty path is invalid; then for each
consecutive pair, fail when the Manhattan distance exceeds 1 or the second
coordinate's cell is the impassable sentinel. -/
def is_valid_path (grid : Grid) : List (Int × Int) → Bool
  | [] => false
  | [_] => true
  | (x1, y1) :: (x2, y2) :: rest =>
    if (x1 - x2).natAbs + (y1 - y2).natAbs > 1 then false
    else if gridGet grid x2 y2 = -1 then false
    else is_valid_path grid ((x2, y2) :: rest)

/-! ### The engine under test `astar_correct` -/

/-- `abs(node.x - end[0]) + abs(node.y - end[1])`, the Manhattan heuristic. -/
def heuristic (endc : Int × Int) (x y : Int) : Int :=
  ((x - endc.1).natAbs : Int) + ((y - endc.2).natAbs : Int)

/-- One iteration of `astar_correct`'s neighbour loop: skip closed
coordinates; otherwise the fresh neighbour's `g` is infinite, so the
relaxation test `new_g < neighbor.g` always passes and the updated
neighbour is pushed. -/
def astarRelax (_grid : Grid) (endc : Int × Int) (current : Node)
    (closed : List (Int × Int)) (os : List Node) (neighbor : Node) :
    List Node :=
  if (neighbor.x, neighbor.y) ∈ closed then os
  else
    let new_g := current.g.add (.fin neighbor.cost)
    if ECost.blt new_g neighbor.g then
      let h := heuristic endc neighbor.x neighbor.y
      heappush nodeLt dNode os
        (.mk neighbor.x neighbor.y neighbor.cost new_g h
          (new_g.add (.fin h)) (some current))
    else os

/-- The engine's neighbour loop as a fold of the relaxations over the
generated neighbours. -/
def astarStep (grid : Grid) (endc : Int × Int) (current : Node)
    (rest : List Node) (closed : List (Int × Int)) : List Node :=
  (get_neighbors grid current).foldl
    (astarRelax grid endc current closed) rest

/-- `astar_correct`'s `while open_set` loop, with fuel; the closed set is a
list used only for membership. -/
def astarLoop (grid : Grid) (endc : Int × Int) :
    Nat → List Node → List (Int × Int) →
    Option (Option (List (Int × Int)) × ECost)
  | 0, _, _ => none
  | fuel + 1, open_set, closed_set =>
    match heappop nodeLt dNode open_set with
    | none => some (none, .inf)
    | some (current, rest) =>
      if (current.x, current.y) = endc then
        some (some (get_path current), current.g)
      else
        let closed := (current.x, current.y) :: closed_set
        astarLoop grid endc fuel (astarStep grid endc current rest closed)
          closed

/-- `astar_correct(grid, start, end)`: start node with the start cell's
cost, `g = f = 0`, no parent; run the loop. -/
def astar_correct (grid : Grid) (startc endc : Int × Int) (fuel : Nat) :
    Option (Option (List (Int × Int)) × ECost) :=
  let start_node : Node :=
    .mk startc.1 startc.2 (gridGet grid startc.1 startc.2)
      (.fin 0) 0 (.fin 0) none
  astarLoop grid endc fuel [start_node] []

/-! ### The defective engine `astar_buggy` -/

/-- The body of `astar_buggy`'s neighbour loop: never sets `g` (which thus
stays infinite), sets `f = h`, and always pushes unclosed neighbours. -/
def astarBuggyStep (grid : Grid) (endc : Int × Int) (current : Node)
    (rest : List Node) (closed : List (Int × Int)) : List Node :=
  (get_neighbors grid current).foldl (fun os neighbor =>
    if (neighbor.x, neighbor.y) ∈ closed then os
    else
      let h := heuristic endc neighbor.x neighbor.y
      heappush nodeLt dNode os
        (.mk neighbor.x neighbor.y neighbor.cost neighbor.g h
          (.fin h) (some current))) rest

/-- `astar_buggy`'s `while open_set` loop, with fuel. -/
def astarBuggyLoop (grid : Grid) (endc : Int × Int) :
    Nat → List Node → List (Int × Int) →
    Option (Option (List (Int × Int)) × ECost)
  | 0, _, _ => none
  | fuel + 1, open_set, closed_set =>
    match heappop nodeLt dNode open_set with
    | none => some (none, .inf)
    | some (current, rest) =>
      if (current.x, current.y) = endc then
        some (some (get_path current), current.g)
      else
        let closed := (current.x, current.y) :: closed_set
        astarBuggyLoop grid endc fuel
          (astarBuggyStep grid endc current rest closed) closed

/-- `astar_buggy(grid, start, end)`. -/
def astar_buggy (grid : Grid) (startc endc : Int × Int) (fuel : Nat) :
    Option (Option (List (Int × Int)) × ECost) :=
  let start_node : Node :=
    .mk startc.1 startc.2 (gridGet grid startc.1 startc.2)
      (.fin 0) 0 (.fin 0) none
  astarBuggyLoop grid endc fuel [start_node] []

/-! ### The AStarProof harness -/

/-- The type of an injected search algorithm, as the harness sees it:
`(grid, start, end) ↦ (path or absent, cost)`. -/
abbrev Algo := Grid → (Int × Int) → (Int × Int) →
  Option (List (Int × Int)) × ECost

/-- `AStarProof.run_base_case(self)`: run the injected algorithm on the
fixed 2×2 all-ones grid with start = end = (0, 0) and demand the result
`([(0, 0)], 0)`. -/
def run_base_case (alg : Algo) : Bool :=
  let grid : Grid := [[1, 1], [1, 1]]
  let pc := alg grid (0, 0) (0, 0)
  if pc.1 ≠ some [(0, 0)] ∨ pc.2 ≠ .fin 0 then false else true

/-- The trial loop of `AStarProof.run_inductive_step`, instrumented: the
random draws are an explicit list of square grids, and alongside the
boolean verdict the result records every property evaluation the run
performs, as pairs (trial index, property index) with property 0 the
Optimality check and property 1 the Validity check, in evaluation order.
A trial whose algorithm result has an absent path returns `false` at once,
before any property of that trial is evaluated. -/
def runTrials (alg : Algo) (fuel : Nat) :
    Nat → List Grid → Bool × List (Nat × Nat)
  | _, [] => (true, [])
  | i, grid :: more =>
    let n : Int := grid.length
    let startc : Int × Int := (0, 0)
    let endc : Int × Int := (n - 1, n - 1)
    let optimal_cost := (find_optimal_cost grid startc endc fuel).getD .inf
    let res := alg grid startc endc
    match res.1 with
    | none => (false, [])
    | some p =>
      if res.2 ≠ optimal_cost then (false, [(i, 0)])
      else if is_valid_path grid p = false then (false, [(i, 0), (i, 1)])
      else
        let r := runTrials alg fuel (i + 1) more
        (r.1, (i, 0) :: (i, 1) :: r.2)

/-- `AStarProof.run_inductive_step(self, num_tests)` with the random grids
made explicit: `grids` is the sequence of generated square grids (one per
trial, `num_tests` of them). -/
def run_inductive_step (alg : Algo) (fuel : Nat) (grids : List Grid) :
    Bool × List (Nat × Nat) :=
  runTrials alg fuel 0 grids

/-! ### Specification-side predicates -/

/-- Two coordinates at Manhattan distance exactly 1. -/
def adjacent (a b : Int × Int) : Prop :=
  (a.1 - b.1).natAbs + (a.2 - b.2).natAbs = 1

instance (a b : Int × Int) : Decidable (adjacent a b) := by
  unfold adjacent; infer_instance

/-- An in-bounds, non-sentinel cell. -/
def passable (grid : Grid) (c : Int × Int) : Prop :=
  inBounds grid c ∧ gridGet grid c.1 c.2 ≠ -1

instance (grid : Grid) (c : Int × Int) : Decidable (passable grid c) := by
  unfold passable; infer_instance

/-- One legal search move: to an adjacent passable cell. -/
def stepOK (grid : Grid) (a b : Int × Int) : Prop :=
  adjacent a b ∧ passable grid b

/-- `e` is reachable from `s` through passable 4-adjacent cells (the
start cell's own passability is not required, matching both searches). -/
def Reachable (grid : Grid) (s e : Int × Int) : Prop :=
  Relation.ReflTransGen (stepOK grid) s e

/-- The total cost of a walk: the sum of the entered cells' costs (the
start cell's own cost is not charged, matching both searches). -/
def walkCost (grid : Grid) : List (Int × Int) → Int
  | [] => 0
  | c :: t => gridGet grid c.1 c.2 + walkCost grid t

/-- `isWalk grid s cells e`: starting at `s`, the successive `cells` are
each one legal move from the previous one, ending at `e`. -/
def isWalk (grid : Grid) (s : Int × Int) : List (Int × Int) → (Int × Int) → Prop
  | [], e => s = e
  | c :: t, e => stepOK grid s c ∧ isWalk grid c t e

/-- The coordinates of the nodes of an open set. -/
def coordsOf (os : List Node) : List (Int × Int) :=
  os.map fun n => (n.x, n.y)

/-- A node whose predecessor chain is rooted at `startc` and each of whose
non-root cells is an in-bounds passable cell adjacent to its predecessor:
the invariant of every node `astar_correct` ever stores. -/
def chainOK (grid : Grid) (startc : Int × Int) : Node → Prop
  | .mk x y _ _ _ _ none => (x, y) = startc
  | .mk x y _ _ _ _ (some p) =>
    chainOK grid startc p ∧ adjacent (p.x, p.y) (x, y) ∧
      passable grid (x, y)

/-- The 5×5 all-ones grid of concrete scenario 2. -/
def ones5 : Grid := List.replicate 5 (List.replicate 5 1)

/-- The 2×2 all-ones grid of the harness base case. -/
def grid22 : Grid := [[1, 1], [1, 1]]

/-- The `i`-th cell visited by a walk: the start for `i = 0`, then the
walk's cells. -/
def walkCell (s : Int × Int) (l : List (Int × Int)) (i : Nat) :
    Int × Int :=
  if i = 0 then s else l.getD (i - 1) (0, 0)

/-- The cost of the first `i` moves of a walk. -/
def walkPrefixCost (grid : Grid) (l : List (Int × Int)) (i : Nat) :
    Int :=
  walkCost grid (l.take i)

/-- A node whose `g` is the cost of an actual walk from `startc` to its
coordinates: the soundness invariant of the engine's open set. -/
def gWalkOK (grid : Grid) (startc : Int × Int) (nd : Node) : Prop :=
  ∃ l, isWalk grid startc l (nd.x, nd.y) ∧
    nd.g = .fin (walkCost grid l)

/-!
## Theorems

Basic facts about the loops, then one theorem per claim.
-/

/-- When start equals end, the engine's first pop is the start node, which
already matches the goal, so the loop returns `([start], 0)` at once. -/
theorem astar_self (grid : Grid) (s : Int × Int) (fuel : Nat) :
    astar_correct grid s s (fuel + 1) = some (some [s], .fin 0) := by
  simp [astar_correct, astarLoop, heappop, get_path, Node.x, Node.y, Node.g]

/-- When start equals end, the oracle's first pop is `(0, start)`, which
matches the goal, so it returns cost 0 at once. -/
theorem find_self (grid : Grid) (s : Int × Int) (fuel : Nat) :
    find_optimal_cost grid s s (fuel + 1) = some (.fin 0) := by
  simp [find_optimal_cost, findLoop, heappop]

/-- `run_base_case` succeeds exactly when the injected algorithm maps the
fixed base-case input to `([(0, 0)], 0)`. -/
theorem run_base_case_iff (alg : Algo) :
    run_base_case alg = true ↔
      alg grid22 (0, 0) (0, 0) = (some [(0, 0)], ECost.fin 0) := by
  have hdef : run_base_case alg =
      if (alg grid22 (0, 0) (0, 0)).1 ≠ some [(0, 0)] ∨
          (alg grid22 (0, 0) (0, 0)).2 ≠ ECost.fin 0
      then false else true := rfl
  rw [hdef]
  split
  next h =>
    simp only [Bool.false_eq_true, false_iff]
    intro heq
    rw [heq] at h
    simp at h
  next h =>
    push_neg at h
    simp only [true_iff]
    exact Prod.ext h.1 h.2

/-- C4: for every grid and in-bounds coordinate `s`, `astar_correct` on
`start = end = s` returns the single-element path `[s]` with cost 0, and
`AStarProof.run_base_case` accepts an algorithm exactly when that
algorithm returns `([(0, 0)], 0)` on the 2×2 all-ones grid with
`start = end = (0, 0)`. -/
theorem c4_start_eq_end :
    (∀ (grid : Grid) (s : Int × Int) (fuel : Nat), inBounds grid s →
      astar_correct grid s s (fuel + 1) = some (some [s], .fin 0)) ∧
    (∀ alg : Algo, run_base_case alg = true ↔
      alg grid22 (0, 0) (0, 0) = (some [(0, 0)], ECost.fin 0)) :=
  ⟨fun grid s fuel _ => astar_self grid s fuel, run_base_case_iff⟩

/-- C4 witness: the base case concretely, on the 2×2 grid, for the real
engine. -/
theorem c4_start_eq_end_witness :
    astar_correct grid22 (0, 0) (0, 0) 1 = some (some [(0, 0)], .fin 0) ∧
    run_base_case
      (fun g s e => (astar_correct g s e 1).getD (none, .inf)) = true :=
  ⟨c4_start_eq_end.1 grid22 (0, 0) 0 (by decide),
   (c4_start_eq_end.2 _).mpr (by decide)⟩

/-- C6: `astar_correct` is a pure function of its inputs — identical grid,
start and end (and fuel) give identical path and cost. -/
theorem c6_deterministic (g1 g2 : Grid) (s1 s2 e1 e2 : Int × Int)
    (f1 f2 : Nat) (hg : g1 = g2) (hs : s1 = s2) (he : e1 = e2)
    (hf : f1 = f2) :
    astar_correct g1 s1 e1 f1 = astar_correct g2 s2 e2 f2 := by
  rw [hg, hs, he, hf]

/-- C6 witness: two invocations on the same concrete input agree. -/
theorem c6_deterministic_witness :
    astar_correct grid22 (0, 0) (1, 1) 8 =
      astar_correct grid22 (0, 0) (1, 1) 8 :=
  c6_deterministic grid22 grid22 (0, 0) (0, 0) (1, 1) (1, 1) 8 8
    rfl rfl rfl rfl

/-- C7: on the 5×5 all-ones grid from corner to corner, the engine reports
cost 8 (with a path) and the oracle reports the same cost 8. -/
theorem c7_five_by_five :
    (∃ p, astar_correct ones5 (0, 0) (4, 4) 40 = some (some p, .fin 8)) ∧
    find_optimal_cost ones5 (0, 0) (4, 4) 40 = some (.fin 8) := by
  refine ⟨⟨[(0, 0), (1, 0), (2, 0), (2, 1), (3, 1), (3, 2), (4, 2), (4, 3),
    (4, 4)], ?_⟩, ?_⟩ <;> decide

/-- C8: a fully passable square grid of side 5 with unit costs on which
the defective engine's reported cost (infinite, since it never assigns
`g`) differs from the oracle's cost 8 — it fails Optimality there. -/
theorem c8_buggy_fails_optimality :
    ∃ (grid : Grid) (f1 f2 : Nat) (p : List (Int × Int)) (c1 c2 : ECost),
      5 ≤ grid.length ∧ (∀ row ∈ grid, row.length = grid.length) ∧
      (∀ row ∈ grid, ∀ v ∈ row, 1 ≤ v ∧ v ≤ 10) ∧
      astar_buggy grid (0, 0) ((grid.length : Int) - 1,
        (grid.length : Int) - 1) f1 = some (some p, c1) ∧
      find_optimal_cost grid (0, 0) ((grid.length : Int) - 1,
        (grid.length : Int) - 1) f2 = some c2 ∧
      c1 ≠ c2 := by
  refine ⟨ones5, 20, 40, [(0, 0), (0, 1), (0, 2), (0, 3), (0, 4), (1, 4),
    (2, 4), (3, 4), (4, 4)], .inf, .fin 8, ?_⟩
  decide

/-- C9: neither search validates the start cell: with `start = end = s`
the oracle returns 0 and the engine returns `([s], 0)`, no matter the
value stored at `s` (even the impassable sentinel). -/
theorem c9_start_not_validated (grid : Grid) (s : Int × Int) (fuel : Nat)
    (_hs : inBounds grid s) :
    find_optimal_cost grid s s (fuel + 1) = some (.fin 0) ∧
    astar_correct grid s s (fuel + 1) = some (some [s], .fin 0) :=
  ⟨find_self grid s fuel, astar_self grid s fuel⟩

/-- C9 witness: on the grid whose sole cell is the impassable sentinel. -/
theorem c9_start_not_validated_witness :
    gridGet [[-1]] 0 0 = -1 ∧
    (find_optimal_cost [[-1]] (0, 0) (0, 0) 1 = some (.fin 0) ∧
     astar_correct [[-1]] (0, 0) (0, 0) 1 = some (some [(0, 0)], .fin 0)) :=
  ⟨by decide, c9_start_not_validated [[-1]] (0, 0) 0 (by decide)⟩

/-- What `is_valid_path` actually accepts: a non-empty sequence whose
consecutive coordinates are at Manhattan distance at most 1 and whose
cells after the first are all passable values.  (The first cell is never
inspected, and a zero-distance repeat is allowed.) -/
theorem is_valid_path_eq_true (grid : Grid) :
    ∀ path : List (Int × Int), is_valid_path grid path = true ↔
      path ≠ [] ∧
      List.Chain' (fun a b : Int × Int =>
        (a.1 - b.1).natAbs + (a.2 - b.2).natAbs ≤ 1) path ∧
      ∀ c ∈ path.tail, gridGet grid c.1 c.2 ≠ -1
  | [] => by simp [is_valid_path]
  | [a] => by simp [is_valid_path]
  | (x1, y1) :: (x2, y2) :: rest => by
    rw [is_valid_path]
    split
    next hfar =>
      simp only [Bool.false_eq_true, false_iff]
      intro hcl
      have := (List.chain'_cons.mp hcl.2.1).1
      omega
    next hnear =>
      split
      next hwall =>
        simp only [Bool.false_eq_true, false_iff]
        intro hcl
        exact hcl.2.2 (x2, y2) (by simp) hwall
      next hpass =>
        rw [is_valid_path_eq_true grid ((x2, y2) :: rest)]
        constructor
        · rintro ⟨-, hch, htl⟩
          refine ⟨by simp, List.chain'_cons.mpr ⟨by omega, hch⟩, ?_⟩
          intro c hc
          rcases List.mem_cons.mp hc with rfl | hc
          · exact hpass
          · exact htl c hc
        · rintro ⟨-, hch, htl⟩
          refine ⟨by simp, (List.chain'_cons.mp hch).2, ?_⟩
          intro c hc
          exact htl c (List.mem_cons_of_mem _ hc)

/-- C5 counterexample: the validator accepts a single-coordinate path
whose (first) cell is the impassable sentinel, and accepts a repeated
coordinate although the pair is not at Manhattan distance exactly 1 —
in both cases the claim demands `False`. -/
theorem c5_validator_cex :
    is_valid_path [[-1]] [(0, 0)] = true ∧ gridGet [[-1]] 0 0 = -1 ∧
    is_valid_path [[1]] [(0, 0), (0, 0)] = true ∧
    ¬ adjacent (0, 0) (0, 0) := by decide

/-- C5 as amended: for in-bounds paths, `is_valid_path` returns `False`
exactly when the path is empty, or some consecutive pair is more than one
Manhattan step apart, or some coordinate after the first names an
impassable cell; otherwise it returns `True`. -/
theorem c5_validator_characterization (grid : Grid)
    (path : List (Int × Int)) (_hb : ∀ c ∈ path, inBounds grid c) :
    is_valid_path grid path = false ↔
      (path = [] ∨
       ¬ List.Chain' (fun a b : Int × Int =>
         (a.1 - b.1).natAbs + (a.2 - b.2).natAbs ≤ 1) path ∨
       ∃ c ∈ path.tail, gridGet grid c.1 c.2 = -1) := by
  have h := is_valid_path_eq_true grid path
  constructor
  · intro hfalse
    by_contra hcon
    push_neg at hcon
    have := h.mpr ⟨hcon.1, hcon.2.1, hcon.2.2⟩
    rw [hfalse] at this
    exact Bool.false_ne_true this
  · intro hcase
    cases hval : is_valid_path grid path with
    | false => rfl
    | true =>
      rcases h.mp hval with ⟨hne, hch, htl⟩
      rcases hcase with rfl | hch2 | ⟨c, hc, hwall⟩
      · exact absurd rfl hne
      · exact absurd hch hch2
      · exact absurd hwall (htl c hc)

/-- C5 witness: the characterization applied to a concrete valid
two-step path. -/
theorem c5_validator_witness :
    is_valid_path [[1, 1]] [(0, 0), (0, 1)] = false ↔
      (([(0, 0), (0, 1)] : List (Int × Int)) = [] ∨
       ¬ List.Chain' (fun a b : Int × Int =>
         (a.1 - b.1).natAbs + (a.2 - b.2).natAbs ≤ 1) [(0, 0), (0, 1)] ∨
       ∃ c ∈ ([(0, 0), (0, 1)] : List (Int × Int)).tail,
         gridGet [[1, 1]] c.1 c.2 = -1) :=
  c5_validator_characterization [[1, 1]] [(0, 0), (0, 1)] (by decide)

/-- The trial loop halts with verdict `false` whenever some in-range trial
would give an absent path, and no property is ever evaluated on that
trial (either the run dies on an earlier trial, or it reaches this trial
and returns before the property loop). -/
theorem runTrials_none_false (alg : Algo) (fuel : Nat) :
    ∀ (grids : List Grid) (i0 i : Nat), i < grids.length →
      (alg (grids.getD i []) (0, 0)
        (((grids.getD i []).length : Int) - 1,
         ((grids.getD i []).length : Int) - 1)).1 = none →
      (runTrials alg fuel i0 grids).1 = false ∧
      ∀ pidx, (i0 + i, pidx) ∉ (runTrials alg fuel i0 grids).2
  | [], _, i, hi, _ => absurd hi (by simp)
  | grid :: more, i0, i, hi, hnone => by
    have hdef : runTrials alg fuel i0 (grid :: more) =
        (match (alg grid (0, 0) ((grid.length : Int) - 1,
            (grid.length : Int) - 1)).1 with
        | none => (false, [])
        | some p =>
          if (alg grid (0, 0) ((grid.length : Int) - 1,
              (grid.length : Int) - 1)).2 ≠
              (find_optimal_cost grid (0, 0) ((grid.length : Int) - 1,
                (grid.length : Int) - 1) fuel).getD .inf then
            (false, [(i0, 0)])
          else if is_valid_path grid p = false then
            (false, [(i0, 0), (i0, 1)])
          else
            ((runTrials alg fuel (i0 + 1) more).1,
             (i0, 0) :: (i0, 1) :: (runTrials alg fuel (i0 + 1) more).2)) :=
      rfl
    cases i with
    | zero =>
      simp only [List.getD_cons_zero] at hnone
      rw [hdef, hnone]
      simp
    | succ j =>
      simp only [List.getD_cons_succ] at hnone
      have hj : j < more.length := by
        simp only [List.length_cons] at hi
        omega
      have ih := runTrials_none_false alg fuel more (i0 + 1) j hj hnone
      rw [hdef]
      cases hp : (alg grid (0, 0) ((grid.length : Int) - 1,
          (grid.length : Int) - 1)).1 with
      | none => simp
      | some p =>
        dsimp only
        by_cases hopt : (alg grid (0, 0) ((grid.length : Int) - 1,
            (grid.length : Int) - 1)).2 ≠
            (find_optimal_cost grid (0, 0) ((grid.length : Int) - 1,
              (grid.length : Int) - 1) fuel).getD .inf
        · rw [if_pos hopt]
          refine ⟨rfl, ?_⟩
          intro pidx hmem
          simp only [List.mem_singleton, Prod.mk.injEq] at hmem
          omega
        · rw [if_neg hopt]
          by_cases hvp : is_valid_path grid p = false
          · rw [if_pos hvp]
            refine ⟨rfl, ?_⟩
            intro pidx hmem
            simp only [List.mem_cons, List.mem_singleton, Prod.mk.injEq,
              List.not_mem_nil, or_false] at hmem
            omega
          · rw [if_neg hvp]
            refine ⟨ih.1, ?_⟩
            intro pidx hmem
            simp only [List.mem_cons, Prod.mk.injEq] at hmem
            rcases hmem with h1 | h1 | h1
            · omega
            · omega
            · exact ih.2 pidx (by
                have heq : i0 + 1 + j = i0 + (j + 1) := by omega
                rw [heq]
                exact h1)

/-- C10: `run_inductive_step` treats an absent path as a hard failure —
if on some in-range trial the injected algorithm returns an absent path,
the run returns `False`, and no registered Property is evaluated on that
trial. -/
theorem c10_none_is_hard_failure (alg : Algo) (fuel : Nat)
    (grids : List Grid) (i : Nat) (hi : i < grids.length)
    (hnone : (alg (grids.getD i []) (0, 0)
      (((grids.getD i []).length : Int) - 1,
       ((grids.getD i []).length : Int) - 1)).1 = none) :
    (run_inductive_step alg fuel grids).1 = false ∧
    ∀ pidx, (i, pidx) ∉ (run_inductive_step alg fuel grids).2 := by
  have h := runTrials_none_false alg fuel grids 0 i hi hnone
  simpa [run_inductive_step] using h

/-- C10 witness: an algorithm that always reports an absent path makes
the run fail with an empty evaluation trace. -/
theorem c10_none_is_hard_failure_witness :
    (run_inductive_step (fun _ _ _ => (none, .inf)) 1 [[[1]]]).1 = false ∧
    (0, 0) ∉ (run_inductive_step (fun _ _ _ => (none, .inf)) 1 [[[1]]]).2 := by
  have h := c10_none_is_hard_failure (fun _ _ _ => (none, .inf)) 1
    [[[1]]] 0 (by decide) rfl
  exact ⟨h.1, h.2 0⟩

/-! ### The heap operations permute their contents -/

/-- Setting an in-range position is, up to permutation, a cons onto the
list with that position removed. -/
theorem set_perm_cons_eraseIdx {α : Type} :
    ∀ (l : List α) (n : Nat) (a : α), n < l.length →
      List.Perm (l.set n a) (a :: l.eraseIdx n)
  | [], n, a, h => absurd h (by simp)
  | _ :: _, 0, _, _ => by simp
  | b :: t, n + 1, a, h => by
    simp only [List.set_cons_succ, List.eraseIdx_cons_succ]
    have ih := set_perm_cons_eraseIdx t n a (by simpa using h)
    exact (ih.cons b).trans (List.Perm.swap a b _)

/-- A list is, up to permutation, its entry at an in-range position consed
onto the list with that position removed. -/
theorem perm_getD_cons_eraseIdx {α : Type} :
    ∀ (l : List α) (n : Nat) (d : α), n < l.length →
      List.Perm l (l.getD n d :: l.eraseIdx n)
  | [], n, _, h => absurd h (by simp)
  | _ :: _, 0, _, _ => by simp
  | b :: t, n + 1, d, h => by
    simp only [List.getD_cons_succ, List.eraseIdx_cons_succ]
    have ih := perm_getD_cons_eraseIdx t n d (by simpa using h)
    exact (ih.cons b).trans (List.Perm.swap _ b _)

/-- Copying the entry at `j` over position `i` and then overwriting
position `j` with `x` permutes to simply writing `x` at position `i`. -/
theorem set_getD_set_perm {α : Type} :
    ∀ (l : List α) (i j : Nat) (d x : α), i ≠ j → i < l.length →
      j < l.length →
      List.Perm ((l.set i (l.getD j d)).set j x) (l.set i x)
  | [], _, _, _, _, _, hi, _ => absurd hi (by simp)
  | a :: t, 0, 0, _, _, hne, _, _ => absurd rfl hne
  | a :: t, 0, j + 1, d, x, _, _, hj => by
    simp only [List.getD_cons_succ, List.set_cons_zero,
      List.set_cons_succ]
    have hjt : j < t.length := by simpa using hj
    have h1 := set_perm_cons_eraseIdx t j x hjt
    have h2 := perm_getD_cons_eraseIdx t j d hjt
    exact ((h1.cons _).trans (List.Perm.swap x _ _)).trans
      ((h2.symm).cons x)
  | a :: t, i + 1, 0, d, x, _, hi, _ => by
    simp only [List.getD_cons_zero, List.set_cons_succ,
      List.set_cons_zero]
    have hit : i < t.length := by simpa using hi
    have h1 := set_perm_cons_eraseIdx t i a hit
    have h2 := set_perm_cons_eraseIdx t i x hit
    exact ((h1.cons x).trans (List.Perm.swap a x _)).trans
      ((h2.symm).cons a)
  | a :: t, i + 1, j + 1, d, x, hne, hi, hj => by
    simp only [List.getD_cons_succ, List.set_cons_succ]
    exact (set_getD_set_perm t i j d x (by omega) (by simpa using hi)
      (by simpa using hj)).cons a

/-- `siftdownGo` permutes the heap into the heap with `item` written at
the starting position. -/
theorem siftdownGo_perm {α : Type} (lt : α → α → Bool) (d : α) :
    ∀ (n : Nat) (heap : List α) (s p : Nat) (item : α),
      p < heap.length →
      List.Perm (siftdownGo lt d n heap s p item) (heap.set p item)
  | 0, heap, s, p, item, _ => by
    rw [siftdownGo]
  | n + 1, heap, s, p, item, hp => by
    rw [siftdownGo]
    split
    next hsp =>
      dsimp only
      split
      next hlt =>
        have hpp : (p - 1) / 2 < p := by
          have := Nat.div_le_self (p - 1) 2
          omega
        have ih := siftdownGo_perm lt d n
          (heap.set p (heap.getD ((p - 1) / 2) d)) s ((p - 1) / 2) item
          (by rw [List.length_set]; omega)
        exact ih.trans
          (set_getD_set_perm heap p ((p - 1) / 2) d item (by omega) hp
            (by omega))
      next => exact List.Perm.refl _
    next => exact List.Perm.refl _

/-- `siftupGo` keeps the length, returns an in-range final position, and
writing any value at that final position permutes to writing it at the
starting position of the original heap. -/
theorem siftupGo_spec {α : Type} (lt : α → α → Bool) (d : α) :
    ∀ (n : Nat) (heap : List α) (p : Nat), p < heap.length →
      (siftupGo lt d n heap p).1.length = heap.length ∧
      (siftupGo lt d n heap p).2 < heap.length ∧
      ∀ x, List.Perm
        ((siftupGo lt d n heap p).1.set (siftupGo lt d n heap p).2 x)
        (heap.set p x)
  | 0, heap, p, hp => by
    rw [siftupGo]
    exact ⟨rfl, hp, fun x => List.Perm.refl _⟩
  | n + 1, heap, p, hp => by
    rw [siftupGo]
    split
    next hchild =>
      set c2 := if 2 * p + 1 + 1 < heap.length ∧
          ¬ lt (heap.getD (2 * p + 1) d) (heap.getD (2 * p + 1 + 1) d)
        then 2 * p + 1 + 1 else 2 * p + 1 with hc2def
      have hc2 : c2 < heap.length ∧ p < c2 := by
        rw [hc2def]
        split
        next hcase => exact ⟨hcase.1, by omega⟩
        next => exact ⟨hchild, by omega⟩
      have ih := siftupGo_spec lt d n (heap.set p (heap.getD c2 d)) c2
        (by rw [List.length_set]; exact hc2.1)
      rw [List.length_set] at ih
      refine ⟨ih.1, ih.2.1, fun x => ?_⟩
      exact (ih.2.2 x).trans
        (set_getD_set_perm heap p c2 d x (by omega) hp hc2.1)
    next => exact ⟨rfl, hp, fun x => List.Perm.refl _⟩

/-- `siftup` permutes the heap into the heap with `item` written at the
starting position. -/
theorem siftup_perm {α : Type} (lt : α → α → Bool) (d : α)
    (heap : List α) (s p : Nat) (item : α) (hp : p < heap.length) :
    List.Perm (siftup lt d heap s p item) (heap.set p item) := by
  unfold siftup siftupLoop
  have hspec := siftupGo_spec lt d heap.length heap p hp
  have h1 := siftdownGo_perm lt d
    ((siftupGo lt d heap.length heap p).2)
    ((siftupGo lt d heap.length heap p).1.set
      (siftupGo lt d heap.length heap p).2 item)
    s ((siftupGo lt d heap.length heap p).2) item
    (by rw [List.length_set, hspec.1]; exact hspec.2.1)
  unfold siftdown
  refine h1.trans ?_
  rw [List.set_set]
  exact hspec.2.2 item

/-- Writing `b` over the appended last element gives the list with `b`
appended instead. -/
theorem set_append_last {α : Type} :
    ∀ (l : List α) (a b : α), (l ++ [a]).set l.length b = l ++ [b]
  | [], _, _ => rfl
  | c :: t, a, b => by
    simp only [List.cons_append, List.length_cons, List.set_cons_succ]
    rw [set_append_last t a b]

/-- `heappush` permutes the heap into the pushed item consed on. -/
theorem heappush_perm {α : Type} (lt : α → α → Bool) (d : α)
    (heap : List α) (item : α) :
    List.Perm (heappush lt d heap item) (item :: heap) := by
  unfold heappush siftdown
  have h := siftdownGo_perm lt d heap.length (heap ++ [item]) 0
    heap.length item (by simp)
  rw [set_append_last] at h
  exact h.trans (List.perm_append_singleton item heap)

/-- `heappop` splits the heap, up to permutation, into the returned
element and the remaining heap. -/
theorem heappop_perm {α : Type} (lt : α → α → Bool) (d : α)
    (heap rest : List α) (ret : α)
    (h : heappop lt d heap = some (ret, rest)) :
    List.Perm heap (ret :: rest) := by
  unfold heappop at h
  cases hlast : heap.getLast? with
  | none => rw [hlast] at h; exact absurd h (by simp)
  | some lastelt =>
    rw [hlast] at h
    dsimp only at h
    have hsplit : heap.dropLast ++ [lastelt] = heap :=
      List.dropLast_append_getLast? lastelt hlast
    by_cases hemp : heap.dropLast.isEmpty
    · rw [if_pos hemp] at h
      have hnil : heap.dropLast = [] := List.isEmpty_iff.mp hemp
      obtain ⟨rfl, rfl⟩ : lastelt = ret ∧ heap.dropLast = rest := by
        have := Option.some.inj h
        exact ⟨congrArg Prod.fst this, congrArg Prod.snd this⟩
      rw [← hsplit, hnil]
      simp
    · rw [if_neg hemp] at h
      have hnil : heap.dropLast ≠ [] := by
        intro hc
        rw [hc] at hemp
        exact hemp rfl
      obtain ⟨r0, rtail, hr0⟩ : ∃ r0 rtail, heap.dropLast = r0 :: rtail :=
        List.exists_cons_of_ne_nil hnil
      obtain ⟨hret, hrest⟩ : heap.dropLast.getD 0 d = ret ∧
          siftup lt d (heap.dropLast.set 0 lastelt) 0 0 lastelt = rest := by
        have := Option.some.inj h
        exact ⟨congrArg Prod.fst this, congrArg Prod.snd this⟩
      have hlen : 0 < heap.dropLast.length := by rw [hr0]; simp
      have hperm : List.Perm rest (lastelt :: rtail) := by
        rw [← hrest]
        refine (siftup_perm lt d (heap.dropLast.set 0 lastelt) 0 0
          lastelt (by rw [List.length_set]; exact hlen)).trans ?_
        rw [List.set_set, hr0]
        simp
      have hret2 : ret = r0 := by
        rw [← hret, hr0]
        simp
      have hstep1 : heap = r0 :: (rtail ++ [lastelt]) := by
        rw [← hsplit, hr0]
        simp
      have hstep2 : List.Perm (r0 :: (rtail ++ [lastelt]))
          (r0 :: (lastelt :: rtail)) :=
        (List.perm_append_singleton lastelt rtail).cons r0
      have hstep3 : List.Perm (ret :: rest) (r0 :: (lastelt :: rtail)) := by
        rw [hret2]
        exact hperm.cons r0
      rw [hstep1]
      exact hstep2.trans hstep3.symm

/-- Membership in a pushed heap. -/
theorem heappush_mem_iff {α : Type} (lt : α → α → Bool) (d : α)
    (heap : List α) (item z : α) :
    z ∈ heappush lt d heap item ↔ z = item ∨ z ∈ heap := by
  rw [(heappush_perm lt d heap item).mem_iff]
  simp

/-- Membership before and after a pop. -/
theorem heappop_mem_iff {α : Type} (lt : α → α → Bool) (d : α)
    (heap rest : List α) (ret : α)
    (h : heappop lt d heap = some (ret, rest)) (z : α) :
    z ∈ heap ↔ z = ret ∨ z ∈ rest := by
  rw [(heappop_perm lt d heap rest ret h).mem_iff]
  simp

/-! ### The predecessor-chain invariant of the engine -/

/-- Reconstructed paths are never empty. -/
theorem get_path_ne_nil : ∀ nd : Node, get_path nd ≠ []
  | .mk _ _ _ _ _ _ none => by simp [get_path]
  | .mk _ _ _ _ _ _ (some _) => by simp [get_path]

/-- A reconstructed path ends at the node's own coordinates. -/
theorem get_path_getLast (nd : Node) :
    (get_path nd).getLast? = some (nd.x, nd.y) := by
  cases nd with
  | mk x y cost g h f parent =>
    cases parent with
    | none => simp [get_path, Node.x, Node.y]
    | some p => simp [get_path, Node.x, Node.y, List.getLast?_concat]

/-- The path of a well-chained node starts at the chain's root. -/
theorem chainOK_head (grid : Grid) (startc : Int × Int) :
    ∀ nd : Node, chainOK grid startc nd →
      (get_path nd).head? = some startc
  | .mk x y cost g h f none, hOK => by
    simp only [chainOK] at hOK
    simp [get_path, hOK]
  | .mk x y cost g h f (some p), hOK => by
    simp only [chainOK] at hOK
    rw [get_path, List.head?_append_of_ne_nil _ (get_path_ne_nil p)]
    exact chainOK_head grid startc p hOK.1

/-- The path of a well-chained node makes only Manhattan-distance-1
steps. -/
theorem chainOK_chain (grid : Grid) (startc : Int × Int) :
    ∀ nd : Node, chainOK grid startc nd →
      List.Chain' adjacent (get_path nd)
  | .mk x y cost g h f none, _ => by simp [get_path]
  | .mk x y cost g h f (some p), hOK => by
    simp only [chainOK] at hOK
    rw [get_path]
    refine List.Chain'.append (chainOK_chain grid startc p hOK.1)
      (by simp) ?_
    intro a ha b hb
    rw [get_path_getLast p] at ha
    simp only [Option.mem_def, Option.some.injEq, List.head?_cons] at ha hb
    rw [← ha, ← hb]
    exact hOK.2.1

/-- Every cell of the path of a well-chained node is the root or a
passable cell. -/
theorem chainOK_mem (grid : Grid) (startc : Int × Int) :
    ∀ nd : Node, chainOK grid startc nd →
      ∀ c ∈ get_path nd, c = startc ∨ passable grid c
  | .mk x y cost g h f none, hOK, c, hc => by
    simp only [chainOK] at hOK
    simp only [get_path, List.mem_singleton] at hc
    exact Or.inl (hc.trans hOK)
  | .mk x y cost g h f (some p), hOK, c, hc => by
    simp only [chainOK] at hOK
    rw [get_path] at hc
    rcases List.mem_append.mp hc with hcp | hcx
    · exact chainOK_mem grid startc p hOK.1 c hcp
    · right
      simp only [List.mem_singleton] at hcx
      rw [hcx]
      exact hOK.2.2

/-- A fold whose step preserves a membership invariant preserves it. -/
theorem foldl_mem_preserve {γ β : Type} (P : γ → Prop)
    (f : List γ → β → List γ) :
    ∀ (l : List β) (acc : List γ),
      (∀ b ∈ l, ∀ acc2 : List γ, (∀ z ∈ acc2, P z) → ∀ z ∈ f acc2 b, P z) →
      (∀ z ∈ acc, P z) → ∀ z ∈ l.foldl f acc, P z
  | [], _, _, hacc => hacc
  | b :: t, acc, hf, hacc =>
    foldl_mem_preserve P f t (f acc b)
      (fun b2 hb2 => hf b2 (List.mem_cons_of_mem _ hb2))
      (hf b (List.mem_cons_self b t) acc hacc)

/-- Every generated neighbour is adjacent to its node, passable, and has
infinite `g`. -/
theorem get_neighbors_spec (grid : Grid) (node : Node) :
    ∀ nb ∈ get_neighbors grid node,
      adjacent (node.x, node.y) (nb.x, nb.y) ∧
      passable grid (nb.x, nb.y) ∧ nb.g = .inf := by
  intro nb hnb
  unfold get_neighbors at hnb
  rcases List.mem_filterMap.mp hnb with ⟨dm, hdm, hf⟩
  dsimp only at hf
  split at hf
  next hcond =>
    have hnb2 := Option.some.inj hf
    rw [← hnb2]
    simp only [Node.x, Node.y, Node.g]
    refine ⟨?_, ⟨⟨hcond.1, hcond.2.1, hcond.2.2.1, hcond.2.2.2.1⟩,
      hcond.2.2.2.2⟩, trivial⟩
    simp only [possible_moves, List.mem_cons, List.mem_singleton,
      List.not_mem_nil, or_false] at hdm
    rcases hdm with rfl | rfl | rfl | rfl <;>
      simp only [adjacent] <;> omega
  next => exact absurd hf (by simp)

/-- The engine's neighbour loop keeps the chain invariant of the open
set. -/
theorem astarStep_chainOK (grid : Grid) (startc endc : Int × Int)
    (current : Node) (rest : List Node) (closed : List (Int × Int))
    (hcur : chainOK grid startc current)
    (hrest : ∀ z ∈ rest, chainOK grid startc z) :
    ∀ z ∈ astarStep grid endc current rest closed,
      chainOK grid startc z := by
  unfold astarStep
  refine foldl_mem_preserve _ _ (get_neighbors grid current) rest
    ?_ hrest
  intro nb hnb acc hacc z hz
  unfold astarRelax at hz
  split at hz
  next => exact hacc z hz
  next =>
    dsimp only at hz
    split at hz
    next =>
      rw [heappush_mem_iff] at hz
      rcases hz with rfl | hz
      · have hspec := get_neighbors_spec grid current nb hnb
        simp only [chainOK, Node.x, Node.y]
        exact ⟨hcur, hspec.1, hspec.2.1⟩
      · exact hacc z hz
    next => exact hacc z hz

/-- Any present path the engine's loop returns is the reconstruction of a
well-chained node whose coordinates are the goal. -/
theorem astarLoop_chainOK (grid : Grid) (startc endc : Int × Int) :
    ∀ (fuel : Nat) (os : List Node) (closed : List (Int × Int)),
      (∀ z ∈ os, chainOK grid startc z) →
      ∀ (path : List (Int × Int)) (c : ECost),
      astarLoop grid endc fuel os closed = some (some path, c) →
      ∃ nd, chainOK grid startc nd ∧ (nd.x, nd.y) = endc ∧
        path = get_path nd
  | 0, os, closed, _, path, c, h => by
    rw [astarLoop] at h
    exact absurd h (by simp)
  | fuel + 1, os, closed, hos, path, c, h => by
    rw [astarLoop] at h
    cases hpop : heappop nodeLt dNode os with
    | none =>
      rw [hpop] at h
      exact absurd h (by simp)
    | some pr =>
      obtain ⟨current, rest⟩ := pr
      rw [hpop] at h
      dsimp only at h
      have hcur : chainOK grid startc current :=
        hos current ((heappop_mem_iff nodeLt dNode os rest current hpop
          current).mpr (Or.inl rfl))
      have hrest : ∀ z ∈ rest, chainOK grid startc z := fun z hz =>
        hos z ((heappop_mem_iff nodeLt dNode os rest current hpop
          z).mpr (Or.inr hz))
      by_cases hend : (current.x, current.y) = endc
      · rw [if_pos hend] at h
        have hinj := Option.some.inj h
        have hpath : some (get_path current) = some path :=
          congrArg Prod.fst hinj
        exact ⟨current, hcur, hend, (Option.some.inj hpath).symm⟩
      · rw [if_neg hend] at h
        exact astarLoop_chainOK grid startc endc fuel
          (astarStep grid endc current rest ((current.x, current.y)
            :: closed)) ((current.x, current.y) :: closed)
          (astarStep_chainOK grid startc endc current rest _ hcur hrest)
          path c h

/-- C2 counterexample: with the impassable single-cell grid and
`start = end = (0, 0)` (both in bounds), the engine returns the present
path `[(0, 0)]`, whose (first) coordinate names an impassable cell — the
claim demands that no coordinate of a returned path be impassable. -/
theorem c2_path_cex :
    inBounds [[-1]] (0, 0) ∧
    astar_correct [[-1]] (0, 0) (0, 0) 1 =
      some (some [(0, 0)], .fin 0) ∧
    gridGet [[-1]] 0 0 = -1 := by decide

/-- C2 as amended: provided the start cell itself is passable, every
present path returned by `astar_correct` starts at `start`, ends at
`end`, moves by Manhattan distance exactly 1, and never names an
impassable cell. -/
theorem c2_path_valid (grid : Grid) (startc endc : Int × Int)
    (fuel : Nat) (path : List (Int × Int)) (c : ECost)
    (_hs : inBounds grid startc) (_he : inBounds grid endc)
    (hpass : gridGet grid startc.1 startc.2 ≠ -1)
    (hrun : astar_correct grid startc endc fuel =
      some (some path, c)) :
    path.head? = some startc ∧ path.getLast? = some endc ∧
    List.Chain' adjacent path ∧
    ∀ coord ∈ path, gridGet grid coord.1 coord.2 ≠ -1 := by
  unfold astar_correct at hrun
  have hstart : chainOK grid startc
      (.mk startc.1 startc.2 (gridGet grid startc.1 startc.2)
        (.fin 0) 0 (.fin 0) none) := by
    simp only [chainOK]
  obtain ⟨nd, hOK, hend, rfl⟩ :=
    astarLoop_chainOK grid startc endc fuel _ []
      (by
        intro z hz
        simp only [List.mem_singleton] at hz
        rw [hz]
        exact hstart)
      path c hrun
  refine ⟨chainOK_head grid startc nd hOK, ?_,
    chainOK_chain grid startc nd hOK, ?_⟩
  · rw [get_path_getLast nd, hend]
  · intro coord hcoord
    rcases chainOK_mem grid startc nd hOK coord hcoord with rfl | hp
    · exact hpass
    · exact hp.2

/-- C2 witness: the amended statement on the 2×2 all-ones grid. -/
theorem c2_path_valid_witness :
    ([(0, 0), (0, 1), (1, 1)] : List (Int × Int)).head? =
      some (0, 0) ∧
    ([(0, 0), (0, 1), (1, 1)] : List (Int × Int)).getLast? =
      some (1, 1) ∧
    List.Chain' adjacent [((0 : Int), (0 : Int)), (0, 1), (1, 1)] ∧
    ∀ coord ∈ ([(0, 0), (0, 1), (1, 1)] : List (Int × Int)),
      gridGet grid22 coord.1 coord.2 ≠ -1 :=
  c2_path_valid grid22 (0, 0) (1, 1) 12 [(0, 0), (0, 1), (1, 1)]
    (.fin 2) (by decide) (by decide) (by decide) (by decide)

/-! ### Reachability: agreement of engine and oracle on unreachability -/

/-- A well-chained node's coordinates are reachable from the root. -/
theorem chainOK_reachable (grid : Grid) (startc : Int × Int) :
    ∀ nd : Node, chainOK grid startc nd →
      Reachable grid startc (nd.x, nd.y)
  | .mk x y cost g h f none, hOK => by
    simp only [chainOK] at hOK
    simp only [Node.x, Node.y]
    rw [hOK]
    exact Relation.ReflTransGen.refl
  | .mk x y cost g h f (some p), hOK => by
    simp only [chainOK] at hOK
    simp only [Node.x, Node.y]
    exact Relation.ReflTransGen.tail
      (chainOK_reachable grid startc p hOK.1) ⟨hOK.2.1, hOK.2.2⟩

/-- The four possible positions of a cell adjacent to `a`. -/
theorem adjacent_cases (a b : Int × Int) (h : adjacent a b) :
    b = (a.1 + 1, a.2) ∨ b = (a.1 - 1, a.2) ∨
    b = (a.1, a.2 + 1) ∨ b = (a.1, a.2 - 1) := by
  obtain ⟨x, y⟩ := a
  obtain ⟨u, v⟩ := b
  simp only [adjacent] at h
  simp only [Prod.mk.injEq]
  omega

/-- Each move offset leads to an adjacent cell. -/
theorem move_adjacent (x y : Int) (dm : Int × Int)
    (hdm : dm ∈ possible_moves) :
    adjacent (x, y) (x + dm.1, y + dm.2) := by
  simp only [possible_moves, List.mem_cons, List.not_mem_nil,
    or_false] at hdm
  rcases hdm with rfl | rfl | rfl | rfl <;> simp only [adjacent] <;> omega

/-- The guard both searches use for a neighbour is exactly passability. -/
theorem passable_iff_cond (grid : Grid) (nx ny : Int) :
    (0 ≤ nx ∧ nx < rowsOf grid ∧ 0 ≤ ny ∧ ny < colsOf grid ∧
      gridGet grid nx ny ≠ -1) ↔ passable grid (nx, ny) := by
  simp only [passable, inBounds]
  tauto

/-- A predicate preserved by every step of a fold is preserved by the
fold. -/
theorem foldl_pred_mem {γ β : Type} (f : γ → β → γ) (P : γ → Prop) :
    ∀ l : List β, (∀ acc b, b ∈ l → P acc → P (f acc b)) →
      ∀ acc : γ, P acc → P (l.foldl f acc)
  | [], _, _, h => h
  | b :: t, hstep, acc, h => by
    rw [List.foldl_cons]
    exact foldl_pred_mem f P t
      (fun acc2 b2 hb2 => hstep acc2 b2 (List.mem_cons_of_mem _ hb2))
      (f acc b) (hstep acc b (List.mem_cons_self _ _) h)

/-- If processing an item establishes its obligation, and every step
preserves established obligations, the fold meets the obligation of each
of its items. -/
theorem foldl_obligation {γ β : Type} (f : γ → β → γ)
    (R : β → γ → Prop) (hmono : ∀ b acc b2, R b acc → R b (f acc b2)) :
    ∀ (l : List β) (acc : γ) (b : β), b ∈ l →
      (∀ acc2, R b (f acc2 b)) → R b (l.foldl f acc)
  | [], _, _, hb, _ => absurd hb (by simp)
  | b0 :: t, acc, b, hb, hmet => by
    rw [List.foldl_cons]
    rcases List.mem_cons.mp hb with rfl | hbt
    · exact foldl_pred_mem f (R b) t
        (fun acc2 b2 _ hr => hmono b acc2 b2 hr) (f acc b) (hmet acc)
    · exact foldl_obligation f R hmono t (f acc b0) b hbt hmet

/-- An oracle relaxation only adds to the queue. -/
theorem findRelax_queue_grow (grid : Grid) (cost : Int) (x y : Int)
    (qv : List (Int × (Int × Int)) × ((Int × Int) → ECost))
    (dm : Int × Int) :
    ∀ e ∈ qv.1, e ∈ (findRelax grid cost x y qv dm).1 := by
  intro e he
  unfold findRelax
  dsimp only
  split
  next =>
    split
    next => exact (heappush_mem_iff tupLt dTup qv.1 _ e).mpr (Or.inr he)
    next => exact he
  next => exact he

/-- An oracle relaxation never forgets a discovered cell. -/
theorem findRelax_visited_mono (grid : Grid) (cost : Int) (x y : Int)
    (qv : List (Int × (Int × Int)) × ((Int × Int) → ECost))
    (dm : Int × Int) (c : Int × Int) (hc : qv.2 c ≠ .inf) :
    (findRelax grid cost x y qv dm).2 c ≠ .inf := by
  unfold findRelax
  dsimp only
  split
  next =>
    split
    next =>
      by_cases hceq : c = (x + dm.1, y + dm.2)
      · simp [hceq]
      · simpa [hceq] using hc
    next => exact hc
  next => exact hc

/-- A cell discovered by an oracle relaxation was already discovered or
is now on the queue. -/
theorem findRelax_new_queued (grid : Grid) (cost : Int) (x y : Int)
    (qv : List (Int × (Int × Int)) × ((Int × Int) → ECost))
    (dm : Int × Int) (c : Int × Int)
    (hc : (findRelax grid cost x y qv dm).2 c ≠ .inf) :
    qv.2 c ≠ .inf ∨ ∃ e ∈ (findRelax grid cost x y qv dm).1, e.2 = c := by
  revert hc
  unfold findRelax
  dsimp only
  split
  next =>
    split
    next =>
      intro hc
      by_cases hceq : c = (x + dm.1, y + dm.2)
      · right
        refine ⟨(cost + gridGet grid (x + dm.1) (y + dm.2), (x + dm.1,
          y + dm.2)), ?_, hceq.symm⟩
        exact (heappush_mem_iff tupLt dTup qv.1 _ _).mpr (Or.inl rfl)
      · left
        simpa [hceq] using hc
    next => exact fun hc => Or.inl hc
  next => exact fun hc => Or.inl hc

/-- Relaxing towards a passable neighbour leaves it discovered: either it
was already discovered with a no-worse cost, or it is discovered now. -/
theorem findRelax_covers (grid : Grid) (cost : Int) (x y : Int)
    (qv : List (Int × (Int × Int)) × ((Int × Int) → ECost))
    (dm : Int × Int) (hok : passable grid (x + dm.1, y + dm.2)) :
    (findRelax grid cost x y qv dm).2 (x + dm.1, y + dm.2) ≠ .inf := by
  unfold findRelax
  dsimp only
  rw [if_pos ((passable_iff_cond grid (x + dm.1) (y + dm.2)).mpr hok)]
  split
  next => simp
  next hblt =>
    intro hinf
    rw [hinf] at hblt
    exact hblt rfl

/-- The oracle's whole relaxation step: queue growth. -/
theorem findStep_queue_grow (grid : Grid) (cost : Int) (x y : Int)
    (qv : List (Int × (Int × Int)) × ((Int × Int) → ECost)) :
    ∀ e ∈ qv.1, e ∈ (findStep grid cost x y qv).1 := by
  intro e he
  unfold findStep
  exact foldl_pred_mem (findRelax grid cost x y)
    (fun qv2 => e ∈ qv2.1) possible_moves
    (fun acc b _ hacc => findRelax_queue_grow grid cost x y acc b e hacc)
    qv he

/-- The oracle's whole relaxation step: discovery is monotone. -/
theorem findStep_visited_mono (grid : Grid) (cost : Int) (x y : Int)
    (qv : List (Int × (Int × Int)) × ((Int × Int) → ECost))
    (c : Int × Int) (hc : qv.2 c ≠ .inf) :
    (findStep grid cost x y qv).2 c ≠ .inf := by
  unfold findStep
  exact foldl_pred_mem (findRelax grid cost x y)
    (fun qv2 => qv2.2 c ≠ .inf) possible_moves
    (fun acc b _ hacc => findRelax_visited_mono grid cost x y acc b c hacc)
    qv hc

/-- The oracle's whole relaxation step: a newly discovered cell is
queued. -/
theorem findStep_new_queued (grid : Grid) (cost : Int) (x y : Int)
    (qv : List (Int × (Int × Int)) × ((Int × Int) → ECost))
    (c : Int × Int) (hc : (findStep grid cost x y qv).2 c ≠ .inf) :
    qv.2 c ≠ .inf ∨ ∃ e ∈ (findStep grid cost x y qv).1, e.2 = c := by
  revert hc
  unfold findStep
  refine foldl_pred_mem (findRelax grid cost x y)
    (fun qv2 => qv2.2 c ≠ .inf →
      qv.2 c ≠ .inf ∨ ∃ e ∈ qv2.1, e.2 = c) possible_moves ?_ qv
    (fun hc => Or.inl hc)
  intro acc b _ hacc hc
  rcases findRelax_new_queued grid cost x y acc b c hc with hold | hnew
  · rcases hacc hold with h1 | ⟨e, he, hec⟩
    · exact Or.inl h1
    · exact Or.inr ⟨e, findRelax_queue_grow grid cost x y acc b e he, hec⟩
  · exact Or.inr hnew

/-- The oracle's whole relaxation step discovers every passable neighbour
of the expanded cell. -/
theorem findStep_covers (grid : Grid) (cost : Int) (x y : Int)
    (qv : List (Int × (Int × Int)) × ((Int × Int) → ECost))
    (dm : Int × Int) (hdm : dm ∈ possible_moves)
    (hok : passable grid (x + dm.1, y + dm.2)) :
    (findStep grid cost x y qv).2 (x + dm.1, y + dm.2) ≠ .inf := by
  unfold findStep
  exact foldl_obligation (findRelax grid cost x y)
    (fun dm2 qv2 => passable grid (x + dm2.1, y + dm2.2) →
      qv2.2 (x + dm2.1, y + dm2.2) ≠ .inf)
    (fun b acc b2 hr hp =>
      findRelax_visited_mono grid cost x y acc b2 _ (hr hp))
    possible_moves qv dm hdm
    (fun acc2 hp => findRelax_covers grid cost x y acc2 dm hp) hok

/-- A pop returns `none` only on the empty heap. -/
theorem heappop_eq_none {α : Type} (lt : α → α → Bool) (d : α)
    (heap : List α) (h : heappop lt d heap = none) : heap = [] := by
  unfold heappop at h
  cases hlast : heap.getLast? with
  | none => exact List.getLast?_eq_none_iff.mp hlast
  | some a =>
    rw [hlast] at h
    dsimp only at h
    split at h <;> simp at h

/-- Pushed oracle-queue entries point at cells reachable from wherever
the queue's entries already reached. -/
theorem findRelax_queue_reach (grid : Grid) (startc : Int × Int)
    (cost : Int) (x y : Int)
    (qv : List (Int × (Int × Int)) × ((Int × Int) → ECost))
    (dm : Int × Int) (hdm : dm ∈ possible_moves)
    (hq : ∀ e ∈ qv.1, Reachable grid startc e.2)
    (hxy : Reachable grid startc (x, y)) :
    ∀ e ∈ (findRelax grid cost x y qv dm).1,
      Reachable grid startc e.2 := by
  intro e
  unfold findRelax
  dsimp only
  split
  next hcond =>
    split
    next =>
      intro he
      rcases (heappush_mem_iff tupLt dTup qv.1 _ e).mp he with rfl | he2
      · exact Relation.ReflTransGen.tail hxy
          ⟨move_adjacent x y dm hdm,
           (passable_iff_cond grid (x + dm.1) (y + dm.2)).mp hcond⟩
      · exact hq e he2
    next => exact hq e
  next => exact hq e

/-- If the oracle returns a finite cost, the goal is reachable from the
start every queue entry reaches. -/
theorem findLoop_reach (grid : Grid) (startc endc : Int × Int) :
    ∀ (fuel : Nat) (queue : List (Int × (Int × Int)))
      (visited : (Int × Int) → ECost) (r : Int),
      (∀ e ∈ queue, Reachable grid startc e.2) →
      findLoop grid endc fuel queue visited = some (.fin r) →
      Reachable grid startc endc
  | 0, _, _, r, _, h => by
    rw [findLoop] at h
    exact absurd h (by simp)
  | fuel + 1, queue, visited, r, hq, h => by
    rw [findLoop] at h
    cases hpop : heappop tupLt dTup queue with
    | none =>
      rw [hpop] at h
      exact absurd h (by simp)
    | some pr =>
      obtain ⟨⟨cost2, xy⟩, rest⟩ := pr
      rw [hpop] at h
      dsimp only at h
      have hxy : Reachable grid startc xy :=
        hq (cost2, xy)
          ((heappop_mem_iff tupLt dTup queue rest (cost2, xy) hpop
            (cost2, xy)).mpr (Or.inl rfl))
      by_cases hend : xy = endc
      · rw [← hend]
        exact hxy
      · rw [if_neg hend] at h
        have hrest : ∀ e ∈ rest, Reachable grid startc e.2 := fun e he =>
          hq e ((heappop_mem_iff tupLt dTup queue rest (cost2, xy) hpop
            e).mpr (Or.inr he))
        exact findLoop_reach grid startc endc fuel _ _ r
          (by
            refine foldl_pred_mem (findRelax grid cost2 xy.1 xy.2)
              (fun qv2 => ∀ e ∈ qv2.1, Reachable grid startc e.2)
              possible_moves ?_ (rest, visited) hrest
            intro acc dm hdm hacc
            exact findRelax_queue_reach grid startc cost2 xy.1 xy.2 acc
              dm hdm hacc (by simpa using hxy)) h

/-- If the oracle's loop drains its queue and reports unreachable, then no
discovered cell can reach the goal, assuming every discovered cell is
pending on the queue, is the goal, or has all its legal successors
discovered, and that a discovered goal is pending. -/
theorem findLoop_exhaust (grid : Grid) (endc : Int × Int) :
    ∀ (fuel : Nat) (queue : List (Int × (Int × Int)))
      (visited : (Int × Int) → ECost),
      (∀ c : Int × Int, visited c ≠ .inf →
        ((∃ e ∈ queue, e.2 = c) ∨ c = endc ∨
         ∀ v : Int × Int, stepOK grid c v → visited v ≠ .inf)) →
      (visited endc ≠ .inf → ∃ e ∈ queue, e.2 = endc) →
      findLoop grid endc fuel queue visited = some .inf →
      ∀ c : Int × Int, visited c ≠ .inf → ¬ Reachable grid c endc
  | 0, _, _, _, _, h => by
    rw [findLoop] at h
    exact absurd h (by simp)
  | fuel + 1, queue, visited, hL, hK, h => by
    rw [findLoop] at h
    cases hpop : heappop tupLt dTup queue with
    | none =>
      have hqe : queue = [] := heappop_eq_none tupLt dTup queue hpop
      intro c hc hreach
      have key : ∀ a : Int × Int, Reachable grid a endc →
          visited a ≠ .inf → False := by
        intro a ha
        induction ha using Relation.ReflTransGen.head_induction_on with
        | refl =>
          intro hinf
          rcases hK hinf with ⟨e, he, _⟩
          rw [hqe] at he
          exact absurd he (by simp)
        | head hstep htail ih =>
          intro hinf
          rcases hL _ hinf with ⟨e, he, _⟩ | rfl | hexp
          · rw [hqe] at he
            exact absurd he (by simp)
          · rcases hK hinf with ⟨e, he, _⟩
            rw [hqe] at he
            exact absurd he (by simp)
          · exact ih (hexp _ hstep)
      exact key c hreach hc
    | some pr =>
      obtain ⟨⟨cost2, xy⟩, rest⟩ := pr
      rw [hpop] at h
      dsimp only at h
      by_cases hend : xy = endc
      · rw [if_pos hend] at h
        exact absurd h (by simp)
      · rw [if_neg hend] at h
        have hpopmem := heappop_mem_iff tupLt dTup queue rest
          (cost2, xy) hpop
        have hL2 : ∀ c : Int × Int,
            (findStep grid cost2 xy.1 xy.2 (rest, visited)).2 c ≠ .inf →
            ((∃ e ∈ (findStep grid cost2 xy.1 xy.2 (rest, visited)).1,
              e.2 = c) ∨ c = endc ∨
             ∀ v : Int × Int, stepOK grid c v →
              (findStep grid cost2 xy.1 xy.2 (rest, visited)).2 v ≠
                .inf) := by
          intro c hc
          by_cases hvc : visited c = .inf
          · rcases findStep_new_queued grid cost2 xy.1 xy.2
              (rest, visited) c hc with h1 | h2
            · exact absurd hvc h1
            · exact Or.inl h2
          · rcases hL c hvc with ⟨e, he, hec⟩ | rfl | hexp
            · rcases (hpopmem e).mp he with rfl | herest
              · right
                right
                intro v hv
                have hcxy : xy = c := hec
                subst hcxy
                rcases adjacent_cases xy v hv.1 with rfl | rfl | rfl | rfl
                · have := findStep_covers grid cost2 xy.1 xy.2
                    (rest, visited) (1, 0) (by simp [possible_moves])
                    (by simpa using hv.2)
                  simpa using this
                · have := findStep_covers grid cost2 xy.1 xy.2
                    (rest, visited) (-1, 0) (by simp [possible_moves])
                    (by simpa using hv.2)
                  simpa using this
                · have := findStep_covers grid cost2 xy.1 xy.2
                    (rest, visited) (0, 1) (by simp [possible_moves])
                    (by simpa using hv.2)
                  simpa using this
                · have := findStep_covers grid cost2 xy.1 xy.2
                    (rest, visited) (0, -1) (by simp [possible_moves])
                    (by simpa using hv.2)
                  simpa using this
              · exact Or.inl ⟨e, findStep_queue_grow grid cost2 xy.1
                  xy.2 (rest, visited) e herest, hec⟩
            · exact Or.inr (Or.inl rfl)
            · right
              right
              intro v hv
              exact findStep_visited_mono grid cost2 xy.1 xy.2
                (rest, visited) v (hexp v hv)
        have hK2 : (findStep grid cost2 xy.1 xy.2 (rest, visited)).2
            endc ≠ .inf →
            ∃ e ∈ (findStep grid cost2 xy.1 xy.2 (rest, visited)).1,
              e.2 = endc := by
          intro hinf
          by_cases hve : visited endc = .inf
          · rcases findStep_new_queued grid cost2 xy.1 xy.2
              (rest, visited) endc hinf with h1 | h2
            · exact absurd hve h1
            · exact h2
          · rcases hK hve with ⟨e, he, hee⟩
            rcases (hpopmem e).mp he with rfl | herest
            · exact absurd hee hend
            · exact ⟨e, findStep_queue_grow grid cost2 xy.1 xy.2
                (rest, visited) e herest, hee⟩
        have ih := findLoop_exhaust grid endc fuel _ _ hL2 hK2 h
        intro c hc
        exact ih c (findStep_visited_mono grid cost2 xy.1 xy.2
          (rest, visited) c hc)

/-- An engine relaxation only adds to the open set. -/
theorem astarRelax_grow (grid : Grid) (endc : Int × Int)
    (current : Node) (closed : List (Int × Int)) (os : List Node)
    (nb : Node) :
    ∀ z ∈ os, z ∈ astarRelax grid endc current closed os nb := by
  intro z hz
  unfold astarRelax
  split
  next => exact hz
  next =>
    dsimp only
    split
    next => exact (heappush_mem_iff nodeLt dNode os _ z).mpr (Or.inr hz)
    next => exact hz

/-- The engine's whole neighbour step only adds to the open set. -/
theorem astarStep_grows (grid : Grid) (endc : Int × Int)
    (current : Node) (rest : List Node) (closed : List (Int × Int)) :
    ∀ z ∈ rest, z ∈ astarStep grid endc current rest closed := by
  intro z hz
  unfold astarStep
  exact foldl_pred_mem (astarRelax grid endc current closed)
    (fun os => z ∈ os) (get_neighbors grid current)
    (fun acc b _ hacc => astarRelax_grow grid endc current closed acc
      b z hacc) rest hz

/-- Finite costs stay finite under the Python addition. -/
theorem ECost_add_fin_ne_inf (a : ECost) (b : Int) (ha : a ≠ .inf) :
    a.add (.fin b) ≠ .inf := by
  cases a with
  | fin n => simp [ECost.add]
  | inf => exact absurd rfl ha

/-- Every node of the engine's open set keeps a finite `g` through the
neighbour step, provided the expanded node's `g` is finite. -/
theorem astarStep_gfin (grid : Grid) (endc : Int × Int)
    (current : Node) (rest : List Node) (closed : List (Int × Int))
    (hcur : current.g ≠ .inf) (hrest : ∀ z ∈ rest, z.g ≠ .inf) :
    ∀ z ∈ astarStep grid endc current rest closed, z.g ≠ .inf := by
  unfold astarStep
  refine foldl_mem_preserve (fun z : Node => z.g ≠ .inf)
    (astarRelax grid endc current closed) (get_neighbors grid current)
    rest ?_ hrest
  intro nb _ acc hacc z hz
  revert hz
  unfold astarRelax
  split
  next => exact fun hz => hacc z hz
  next =>
    dsimp only
    split
    next =>
      intro hz
      rcases (heappush_mem_iff nodeLt dNode acc _ z).mp hz with rfl | hz2
      · simpa [Node.g] using ECost_add_fin_ne_inf current.g nb.cost hcur
      · exact hacc z hz2
    next => exact fun hz => hacc z hz

/-- Every legal move away from a node's coordinates is realised by one of
its generated neighbours. -/
theorem get_neighbors_complete (grid : Grid) (node : Node)
    (v : Int × Int) (hv : stepOK grid (node.x, node.y) v) :
    ∃ nb ∈ get_neighbors grid node, (nb.x, nb.y) = v := by
  have hpick : ∃ dm ∈ possible_moves,
      v = (node.x + dm.1, node.y + dm.2) := by
    rcases adjacent_cases (node.x, node.y) v hv.1 with h | h | h | h
    · exact ⟨(1, 0), by simp [possible_moves], by simpa using h⟩
    · exact ⟨(-1, 0), by simp [possible_moves], by simpa using h⟩
    · exact ⟨(0, 1), by simp [possible_moves], by simpa using h⟩
    · exact ⟨(0, -1), by simp [possible_moves], by simpa using h⟩
  rcases hpick with ⟨dm, hdm, hveq⟩
  refine ⟨.mk (node.x + dm.1) (node.y + dm.2)
    (gridGet grid (node.x + dm.1) (node.y + dm.2)) .inf 0 .inf none,
    ?_, by simp [Node.x, Node.y, hveq]⟩
  refine List.mem_filterMap.mpr ⟨dm, hdm, ?_⟩
  dsimp only
  rw [if_pos ((passable_iff_cond grid (node.x + dm.1)
    (node.y + dm.2)).mpr (hveq ▸ hv.2))]

/-- After the engine expands a node with finite `g`, each of its generated
neighbours is closed or present in the open set. -/
theorem astarStep_covers (grid : Grid) (endc : Int × Int)
    (current : Node) (rest : List Node) (closed : List (Int × Int))
    (hcur : current.g ≠ .inf) :
    ∀ nb ∈ get_neighbors grid current,
      (nb.x, nb.y) ∈ closed ∨
      ∃ nd ∈ astarStep grid endc current rest closed,
        (nd.x, nd.y) = (nb.x, nb.y) := by
  intro nb hnb
  unfold astarStep
  refine foldl_obligation (astarRelax grid endc current closed)
    (fun nb2 os => (nb2.x, nb2.y) ∈ closed ∨
      ∃ nd ∈ os, (nd.x, nd.y) = (nb2.x, nb2.y)) ?_
    (get_neighbors grid current) rest nb hnb ?_
  · intro b acc b2 hr
    rcases hr with h1 | ⟨nd, hnd, hco⟩
    · exact Or.inl h1
    · exact Or.inr ⟨nd, astarRelax_grow grid endc current closed acc b2
        nd hnd, hco⟩
  · intro acc2
    unfold astarRelax
    split
    next hmem => exact Or.inl hmem
    next hmem =>
      dsimp only
      rw [if_pos]
      · right
        refine ⟨.mk nb.x nb.y nb.cost (current.g.add (.fin nb.cost))
          (heuristic endc nb.x nb.y)
          ((current.g.add (.fin nb.cost)).add
            (.fin (heuristic endc nb.x nb.y))) (some current),
          (heappush_mem_iff nodeLt dNode acc2 _ _).mpr (Or.inl rfl),
          by simp [Node.x, Node.y]⟩
      · have hg := (get_neighbors_spec grid current nb hnb).2.2
        rw [hg]
        cases hfin : current.g.add (.fin nb.cost) with
        | fin n => simp [ECost.blt]
        | inf => exact absurd hfin (ECost_add_fin_ne_inf current.g
            nb.cost hcur)

/-- A result with an absent path carries the infinite cost. -/
theorem astarLoop_none_inf (grid : Grid) (endc : Int × Int) :
    ∀ (fuel : Nat) (os : List Node) (closed : List (Int × Int))
      (c : ECost),
      astarLoop grid endc fuel os closed = some (none, c) → c = .inf
  | 0, _, _, _, h => by
    rw [astarLoop] at h
    exact absurd h (by simp)
  | fuel + 1, os, closed, c, h => by
    rw [astarLoop] at h
    cases hpop : heappop nodeLt dNode os with
    | none =>
      rw [hpop] at h
      dsimp only at h
      exact (Prod.mk.injEq _ _ _ _).mp (Option.some.inj h) |>.2.symm
    | some pr =>
      obtain ⟨current, rest⟩ := pr
      rw [hpop] at h
      dsimp only at h
      by_cases hend : (current.x, current.y) = endc
      · rw [if_pos hend] at h
        have := (Prod.mk.injEq _ _ _ _).mp (Option.some.inj h) |>.1
        exact absurd this (by simp)
      · rw [if_neg hend] at h
        exact astarLoop_none_inf grid endc fuel _ _ c h

/-- If the engine's loop drains its open set and reports unreachable, no
closed or queued coordinate can reach the goal, under the loop's
invariants: closed cells have all legal successors closed or queued, the
goal is never closed, and queued nodes have finite `g`. -/
theorem astarLoop_exhaust (grid : Grid) (endc : Int × Int) :
    ∀ (fuel : Nat) (os : List Node) (closed : List (Int × Int)),
      (∀ c ∈ closed, ∀ v : Int × Int, stepOK grid c v →
        v ∈ closed ∨ ∃ nd ∈ os, (nd.x, nd.y) = v) →
      endc ∉ closed →
      (∀ nd ∈ os, nd.g ≠ .inf) →
      astarLoop grid endc fuel os closed = some (none, .inf) →
      ∀ c : Int × Int, (c ∈ closed ∨ ∃ nd ∈ os, (nd.x, nd.y) = c) →
        ¬ Reachable grid c endc
  | 0, _, _, _, _, _, h => by
    rw [astarLoop] at h
    exact absurd h (by simp)
  | fuel + 1, os, closed, hM, hN, hG, h => by
    rw [astarLoop] at h
    cases hpop : heappop nodeLt dNode os with
    | none =>
      have hose : os = [] := heappop_eq_none nodeLt dNode os hpop
      intro c hc hreach
      have hcc : c ∈ closed := by
        rcases hc with h1 | ⟨nd, hnd, _⟩
        · exact h1
        · rw [hose] at hnd
          exact absurd hnd (by simp)
      have key : ∀ a : Int × Int, Reachable grid a endc →
          a ∈ closed → False := by
        intro a ha
        induction ha using Relation.ReflTransGen.head_induction_on with
        | refl => exact fun hmem => hN hmem
        | head hstep htail ih =>
          intro hmem
          rcases hM _ hmem _ hstep with h1 | ⟨nd, hnd, _⟩
          · exact ih h1
          · rw [hose] at hnd
            exact absurd hnd (by simp)
      exact key c hreach hcc
    | some pr =>
      obtain ⟨current, rest⟩ := pr
      rw [hpop] at h
      dsimp only at h
      have hpopmem := heappop_mem_iff nodeLt dNode os rest current hpop
      by_cases hend : (current.x, current.y) = endc
      · rw [if_pos hend] at h
        have := (Prod.mk.injEq _ _ _ _).mp (Option.some.inj h) |>.1
        exact absurd this (by simp)
      · rw [if_neg hend] at h
        have hcur : current.g ≠ .inf :=
          hG current ((hpopmem current).mpr (Or.inl rfl))
        have hrestG : ∀ z ∈ rest, z.g ≠ .inf := fun z hz =>
          hG z ((hpopmem z).mpr (Or.inr hz))
        have hM2 : ∀ c ∈ (current.x, current.y) :: closed,
            ∀ v : Int × Int, stepOK grid c v →
            v ∈ (current.x, current.y) :: closed ∨
            ∃ nd ∈ astarStep grid endc current rest
              ((current.x, current.y) :: closed),
              (nd.x, nd.y) = v := by
          intro c hcmem v hv
          rcases List.mem_cons.mp hcmem with rfl | hcold
          · rcases get_neighbors_complete grid current v hv with
              ⟨nb, hnb, hco⟩
            rcases astarStep_covers grid endc current rest
              ((current.x, current.y) :: closed) hcur nb hnb with
              h1 | ⟨nd, hnd, hco2⟩
            · rw [hco] at h1
              exact Or.inl h1
            · exact Or.inr ⟨nd, hnd, by rw [hco2, hco]⟩
          · rcases hM c hcold v hv with h1 | ⟨nd, hnd, hco⟩
            · exact Or.inl (List.mem_cons_of_mem _ h1)
            · rcases (hpopmem nd).mp hnd with rfl | hndrest
              · rw [← hco]
                exact Or.inl (List.mem_cons_self _ _)
              · exact Or.inr ⟨nd, astarStep_grows grid endc current rest
                  _ nd hndrest, hco⟩
        have hN2 : endc ∉ (current.x, current.y) :: closed := by
          intro hmem
          rcases List.mem_cons.mp hmem with h1 | h1
          · exact hend h1.symm
          · exact hN h1
        have hG2 := astarStep_gfin grid endc current rest
          ((current.x, current.y) :: closed) hcur hrestG
        have ih := astarLoop_exhaust grid endc fuel _ _ hM2 hN2 hG2 h
        intro c hc
        refine ih c ?_
        rcases hc with h1 | ⟨nd, hnd, hco⟩
        · exact Or.inl (List.mem_cons_of_mem _ h1)
        · rcases (hpopmem nd).mp hnd with rfl | hndrest
          · rw [← hco]
            exact Or.inl (List.mem_cons_self _ _)
          · exact Or.inr ⟨nd, astarStep_grows grid endc current rest
              _ nd hndrest, hco⟩

/-- C3: whenever both searches terminate, the engine reports an absent
path (and with it the infinite cost) exactly when the oracle reports the
infinite cost; in particular a finite oracle cost forces a present path,
and on a grid whose wall separates start from end both report
unreachable. -/
theorem c3_unreachable_agreement (grid : Grid) (startc endc : Int × Int)
    (f1 f2 : Nat) (p : Option (List (Int × Int))) (c r : ECost)
    (_hs : inBounds grid startc) (_he : inBounds grid endc)
    (h1 : astar_correct grid startc endc f1 = some (p, c))
    (h2 : find_optimal_cost grid startc endc f2 = some r) :
    (p = none ↔ r = .inf) ∧ (p = none → c = .inf) := by
  unfold astar_correct at h1
  unfold find_optimal_cost at h2
  have hreach_of_p : ∀ path, p = some path →
      Reachable grid startc endc := by
    intro path hp
    rw [hp] at h1
    obtain ⟨nd, hOK, hendc, _⟩ := astarLoop_chainOK grid startc endc f1
      _ _ (by
        intro z hz
        simp only [List.mem_singleton] at hz
        rw [hz]
        simp only [chainOK]) path c h1
    have hre := chainOK_reachable grid startc nd hOK
    rw [hendc] at hre
    exact hre
  have hcinf_of_p : p = none → c = .inf := by
    intro hp
    rw [hp] at h1
    exact astarLoop_none_inf grid endc f1 _ _ c h1
  have hunreach_of_p : p = none → ¬ Reachable grid startc endc := by
    intro hp
    have hc := hcinf_of_p hp
    rw [hp, hc] at h1
    exact astarLoop_exhaust grid endc f1 _ [] (by simp) (by simp)
      (by
        intro nd hnd
        simp only [List.mem_singleton] at hnd
        rw [hnd]
        simp [Node.g]) h1 startc
      (Or.inr ⟨_, List.mem_singleton_self _, by simp [Node.x, Node.y]⟩)
  have horeach : ∀ rr : Int, r = .fin rr →
      Reachable grid startc endc := by
    intro rr hr
    rw [hr] at h2
    refine findLoop_reach grid startc endc f2 _ _ rr ?_ h2
    intro e he
    simp only [List.mem_singleton] at he
    rw [he]
    exact Relation.ReflTransGen.refl
  have hounreach : r = .inf → ¬ Reachable grid startc endc := by
    intro hr
    rw [hr] at h2
    refine findLoop_exhaust grid endc f2 _ _ ?_ ?_ h2 startc (by simp)
    · intro cc hcc
      by_cases hceq : cc = startc
      · exact Or.inl ⟨(0, startc), List.mem_singleton_self _, hceq.symm⟩
      · rw [if_neg hceq] at hcc
        exact absurd rfl hcc
    · intro hinf
      by_cases hceq : endc = startc
      · exact ⟨(0, startc), List.mem_singleton_self _, hceq.symm⟩
      · rw [if_neg hceq] at hinf
        exact absurd rfl hinf
  refine ⟨⟨?_, ?_⟩, hcinf_of_p⟩
  · intro hp
    cases hrc : r with
    | fin rr => exact absurd (horeach rr hrc) (hunreach_of_p hp)
    | inf => rfl
  · intro hr
    cases hpc : p with
    | some path => exact absurd (hreach_of_p path hpc) (hounreach hr)
    | none => rfl

/-- C3 witness: the three-column grid whose middle column is a wall, with
start and end on opposite sides — the engine reports an absent path with
infinite cost and the oracle reports the infinite cost. -/
theorem c3_unreachable_agreement_witness :
    (((none : Option (List (Int × Int))) = none ↔
        (ECost.inf = ECost.inf)) ∧
     ((none : Option (List (Int × Int))) = none → ECost.inf = .inf)) :=
  c3_unreachable_agreement [[1, -1, 1], [1, -1, 1], [1, -1, 1]]
    (0, 0) (0, 2) 10 10 none .inf .inf (by decide) (by decide)
    (by decide) (by decide)

/-! ### The heap operations keep the heap ordered

The order argument `lt` is assumed irreflexive (`hirr`), with transitive
complement (`hntrans`), and such that anything not below `c` is not below
anything below `c` (`hcomp`) — properties of both Python orders used. -/

/-- Reading at an index other than the set one. -/
theorem getD_set_ne {α : Type} (l : List α) (i j : Nat) (a d : α)
    (hij : i ≠ j) : (l.set i a).getD j d = l.getD j d := by
  by_cases hj : j < l.length
  · rw [List.getD_eq_getElem _ _ (by simpa using hj),
      List.getD_eq_getElem _ _ hj]
    exact List.getElem_set_ne hij _
  · rw [List.getD_eq_default _ _ (by simpa using Nat.le_of_not_lt hj),
      List.getD_eq_default _ _ (Nat.le_of_not_lt hj)]

/-- Reading at the set index. -/
theorem getD_set_self {α : Type} (l : List α) (i : Nat) (a d : α)
    (hi : i < l.length) : (l.set i a).getD i d = a := by
  rw [List.getD_eq_getElem _ _ (by simpa using hi)]
  exact List.getElem_set_self _

/-- In a well-shaped heap, no element is less than the root. -/
theorem heapProp_root_min {α : Type} (lt : α → α → Bool) (d : α)
    (hirr : ∀ a, lt a a = false)
    (hntrans : ∀ a b c, lt a b = false → lt b c = false →
      lt a c = false)
    (l : List α) (hp : heapProp lt d l) :
    ∀ i, i < l.length → lt (l.getD i d) (l.getD 0 d) = false := by
  intro i
  induction i using Nat.strong_induction_on with
  | _ i ih =>
    intro hi
    rcases Nat.eq_zero_or_pos i with h0 | hpos
    · rw [h0]
      exact hirr _
    · have hparent : (i - 1) / 2 < i := by
        have := Nat.div_le_self (i - 1) 2
        omega
      exact hntrans _ _ _ (hp i hpos hi) (ih _ hparent (by omega))

/-- Writing `newitem` into the hole of an almost-heap (all edges not
touching the hole are fine, the hole's children dominate `newitem`,
and `newitem` dominates the hole's parent) restores the heap shape. -/
theorem place_heapProp {α : Type} (lt : α → α → Bool) (d : α)
    (heap : List α) (pos : Nat) (newitem : α) (hpos : pos < heap.length)
    (hA : ∀ i, 0 < i → i < heap.length → i ≠ pos → (i - 1) / 2 ≠ pos →
      lt (heap.getD i d) (heap.getD ((i - 1) / 2) d) = false)
    (hB : ∀ i, 0 < i → i < heap.length → (i - 1) / 2 = pos →
      lt (heap.getD i d) newitem = false)
    (hedge : pos = 0 ∨
      lt newitem (heap.getD ((pos - 1) / 2) d) = false) :
    heapProp lt d (heap.set pos newitem) := by
  intro i hipos hilen
  rw [List.length_set] at hilen
  by_cases hip : i = pos
  · subst hip
    rcases hedge with h0 | hlt
    · omega
    · rw [getD_set_self heap i newitem d hilen,
        getD_set_ne heap i _ newitem d
          (by have := Nat.div_le_self (i - 1) 2; omega)]
      exact hlt
  · by_cases hpp : (i - 1) / 2 = pos
    · rw [getD_set_ne heap pos i newitem d (fun h => hip h.symm), hpp,
        getD_set_self heap pos newitem d hpos]
      exact hB i hipos hilen hpp
    · rw [getD_set_ne heap pos i newitem d (fun h => hip h.symm),
        getD_set_ne heap pos _ newitem d (fun h => hpp h.symm)]
      exact hA i hipos hilen hip hpp

/-- The push sift restores the heap shape from an almost-heap whose hole
is at `pos`: edges away from the hole are fine (`hA`), the hole's
children dominate the item being inserted (`hB`), and they also dominate
the hole's parent (`hC`). -/
theorem siftdownGo_heapProp {α : Type} (lt : α → α → Bool) (d : α)
    (hirr : ∀ a, lt a a = false)
    (hntrans : ∀ a b c, lt a b = false → lt b c = false →
      lt a c = false)
    (hcomp : ∀ a b c, lt a c = true → lt b c = false →
      lt b a = false) :
    ∀ (n : Nat) (heap : List α) (pos : Nat) (newitem : α),
      pos < heap.length → pos ≤ n →
      (∀ i, 0 < i → i < heap.length → i ≠ pos → (i - 1) / 2 ≠ pos →
        lt (heap.getD i d) (heap.getD ((i - 1) / 2) d) = false) →
      (∀ i, 0 < i → i < heap.length → (i - 1) / 2 = pos →
        lt (heap.getD i d) newitem = false) →
      (∀ i, 0 < i → i < heap.length → (i - 1) / 2 = pos → 0 < pos →
        lt (heap.getD i d) (heap.getD ((pos - 1) / 2) d) = false) →
      heapProp lt d (siftdownGo lt d n heap 0 pos newitem)
  | 0, heap, pos, newitem, hpos, hn, hA, hB, _ => by
    have hpos0 : pos = 0 := by omega
    rw [siftdownGo]
    exact place_heapProp lt d heap pos newitem hpos hA hB (Or.inl hpos0)
  | n + 1, heap, pos, newitem, hpos, hn, hA, hB, hC => by
    rw [siftdownGo]
    by_cases h0 : 0 < pos
    · rw [if_pos h0]
      dsimp only
      have hpplt : (pos - 1) / 2 < pos := by
        have := Nat.div_le_self (pos - 1) 2
        omega
      by_cases hlt : lt newitem (heap.getD ((pos - 1) / 2) d) = true
      · rw [if_pos hlt]
        refine siftdownGo_heapProp lt d hirr hntrans hcomp n
          (heap.set pos (heap.getD ((pos - 1) / 2) d)) ((pos - 1) / 2)
          newitem (by rw [List.length_set]; omega) (by omega) ?_ ?_ ?_
        · intro i hi hilen hi1 hi2
          rw [List.length_set] at hilen
          by_cases hip : i = pos
          · exact absurd (by rw [hip]) hi2
          · by_cases hchild : (i - 1) / 2 = pos
            · rw [getD_set_ne heap pos i _ d (fun h => hip h.symm),
                hchild, getD_set_self heap pos _ d hpos]
              exact hC i hi hilen hchild h0
            · rw [getD_set_ne heap pos i _ d (fun h => hip h.symm),
                getD_set_ne heap pos _ _ d (fun h => hchild h.symm)]
              exact hA i hi hilen hip hchild
        · intro i hi hilen hieq
          rw [List.length_set] at hilen
          by_cases hip : i = pos
          · rw [hip, getD_set_self heap pos _ d hpos]
            exact hcomp newitem _ _ hlt (hirr _)
          · rw [getD_set_ne heap pos i _ d (fun h => hip h.symm)]
            have hedge : lt (heap.getD i d)
                (heap.getD ((pos - 1) / 2) d) = false := by
              have h2 := hA i hi hilen hip (by rw [hieq]; omega)
              rwa [hieq] at h2
            exact hcomp newitem _ _ hlt hedge
        · intro i hi hilen hieq hpp0
          rw [List.length_set] at hilen
          have hgp : ((pos - 1) / 2 - 1) / 2 < (pos - 1) / 2 := by
            have := Nat.div_le_self ((pos - 1) / 2 - 1) 2
            omega
          have hppedge : lt (heap.getD ((pos - 1) / 2) d)
              (heap.getD (((pos - 1) / 2 - 1) / 2) d) = false := by
            refine hA ((pos - 1) / 2) hpp0 (by omega) (by omega)
              (by omega)
          rw [getD_set_ne heap pos (((pos - 1) / 2 - 1) / 2) _ d
            (by omega)]
          by_cases hip : i = pos
          · rw [hip, getD_set_self heap pos _ d hpos]
            exact hppedge
          · rw [getD_set_ne heap pos i _ d (fun h => hip h.symm)]
            have hedge : lt (heap.getD i d)
                (heap.getD ((pos - 1) / 2) d) = false := by
              have h2 := hA i hi hilen hip (by rw [hieq]; omega)
              rwa [hieq] at h2
            exact hntrans _ _ _ hedge hppedge
      · rw [if_neg hlt]
        exact place_heapProp lt d heap pos newitem hpos hA hB
          (Or.inr (by simpa using hlt))
    · rw [if_neg h0]
      exact place_heapProp lt d heap pos newitem hpos hA hB
        (Or.inl (by omega))

/-- The pop sift's hole-lowering phase: starting from a hole at `pos`
whose non-hole edges are fine and whose children dominate the hole's
parent, it ends at a leaf hole with all non-hole edges fine. -/
theorem siftupGo_inv {α : Type} (lt : α → α → Bool) (d : α)
    (hirr : ∀ a, lt a a = false)
    (hcomp : ∀ a b c, lt a c = true → lt b c = false →
      lt b a = false) :
    ∀ (n : Nat) (heap : List α) (pos : Nat),
      pos < heap.length → heap.length - pos ≤ n →
      (∀ i, 0 < i → i < heap.length → i ≠ pos → (i - 1) / 2 ≠ pos →
        lt (heap.getD i d) (heap.getD ((i - 1) / 2) d) = false) →
      (∀ i, 0 < i → i < heap.length → (i - 1) / 2 = pos → 0 < pos →
        lt (heap.getD i d) (heap.getD ((pos - 1) / 2) d) = false) →
      (siftupGo lt d n heap pos).1.length = heap.length ∧
      (siftupGo lt d n heap pos).2 < heap.length ∧
      heap.length ≤ 2 * (siftupGo lt d n heap pos).2 + 1 ∧
      (∀ i, 0 < i → i < heap.length →
        i ≠ (siftupGo lt d n heap pos).2 →
        (i - 1) / 2 ≠ (siftupGo lt d n heap pos).2 →
        lt ((siftupGo lt d n heap pos).1.getD i d)
          ((siftupGo lt d n heap pos).1.getD ((i - 1) / 2) d) = false)
  | 0, heap, pos, hpos, hfuel, _, _ => by omega
  | n + 1, heap, pos, hpos, hfuel, hA, hC => by
    rw [siftupGo]
    dsimp only
    by_cases hch : 2 * pos + 1 < heap.length
    · rw [if_pos hch]
      set c2 := if 2 * pos + 1 + 1 < heap.length ∧
          ¬ lt (heap.getD (2 * pos + 1) d)
            (heap.getD (2 * pos + 1 + 1) d) = true
        then 2 * pos + 1 + 1 else 2 * pos + 1 with hc2def
      have hc2cases : c2 = 2 * pos + 1 ∨ c2 = 2 * pos + 2 := by
        rw [hc2def]
        split
        · right; rfl
        · left; rfl
      have hc2lt : c2 < heap.length := by
        rw [hc2def]
        split
        next hcase => exact hcase.1
        next => exact hch
      have hc2pos : pos < c2 := by omega
      have hsib : ∀ s, s ≠ c2 → (s = 2 * pos + 1 ∨ s = 2 * pos + 2) →
          s < heap.length →
          lt (heap.getD s d) (heap.getD c2 d) = false := by
        intro s hs hscases hslen
        rw [hc2def]
        rw [hc2def] at hs
        revert hs
        split
        next hcase =>
          intro hs
          have hsleft : s = 2 * pos + 1 := by omega
          rw [hsleft]
          simpa using hcase.2
        next hcase =>
          intro hs
          have hsright : s = 2 * pos + 2 := by omega
          push_neg at hcase
          have hlr := hcase (by omega)
          rw [hsright]
          exact hcomp _ _ _ (by simpa using hlr) (hirr _)
      have ih := siftupGo_inv lt d hirr hcomp n
        (heap.set pos (heap.getD c2 d)) c2
        (by rw [List.length_set]; exact hc2lt)
        (by rw [List.length_set]; omega) ?_ ?_
      · rw [List.length_set] at ih
        exact ih
      · intro i hi hilen hine hipar
        rw [List.length_set] at hilen
        by_cases hip : i = pos
        · subst hip
          have hi0 : 0 < i := hi
          rw [getD_set_self heap i _ d hpos,
            getD_set_ne heap i ((i - 1) / 2) _ d
              (by have := Nat.div_le_self (i - 1) 2; omega)]
          refine hC c2 (by omega) hc2lt (by omega) hi0
        · by_cases hchild : (i - 1) / 2 = pos
          · rw [getD_set_ne heap pos i _ d (fun h => hip h.symm),
              hchild, getD_set_self heap pos _ d hpos]
            exact hsib i hine (by omega) hilen
          · rw [getD_set_ne heap pos i _ d (fun h => hip h.symm),
              getD_set_ne heap pos ((i - 1) / 2) _ d
                (fun h => hchild h.symm)]
            exact hA i hi hilen hip hchild
      · intro i hi hilen hipar hc2pos2
        rw [List.length_set] at hilen
        have hc2parent : (c2 - 1) / 2 = pos := by omega
        have hip : i ≠ pos := by omega
        rw [getD_set_ne heap pos i _ d (fun h => hip h.symm),
          hc2parent, getD_set_self heap pos _ d hpos]
        have h2 := hA i hi hilen hip (by omega)
        rwa [hipar] at h2
    · rw [if_neg hch]
      exact ⟨rfl, hpos, by omega, hA⟩

/-- `heappush` keeps the heap well shaped. -/
theorem heappush_heapProp {α : Type} (lt : α → α → Bool) (d : α)
    (hirr : ∀ a, lt a a = false)
    (hntrans : ∀ a b c, lt a b = false → lt b c = false →
      lt a c = false)
    (hcomp : ∀ a b c, lt a c = true → lt b c = false →
      lt b a = false)
    (heap : List α) (item : α) (hp : heapProp lt d heap) :
    heapProp lt d (heappush lt d heap item) := by
  unfold heappush siftdown
  refine siftdownGo_heapProp lt d hirr hntrans hcomp heap.length
    (heap ++ [item]) heap.length item (by simp) (Nat.le_refl _)
    ?_ ?_ ?_
  · intro i hi hilen hine hipar
    simp only [List.length_append, List.length_singleton] at hilen
    have hiltlen : i < heap.length := by omega
    have hparlt : (i - 1) / 2 < heap.length := by
      have := Nat.div_le_self (i - 1) 2
      omega
    rw [List.getD_append _ _ d i hiltlen,
      List.getD_append _ _ d _ hparlt]
    exact hp i hi hiltlen
  · intro i hi hilen hipar
    exfalso
    simp only [List.length_append, List.length_singleton] at hilen
    omega
  · intro i hi hilen hipar _
    exfalso
    simp only [List.length_append, List.length_singleton] at hilen
    omega

/-- Reading the list with its last element dropped. -/
theorem getD_dropLast {α : Type} (l : List α) (i : Nat) (d : α)
    (hi : i < l.dropLast.length) : l.dropLast.getD i d = l.getD i d := by
  rw [List.getD_eq_getElem _ _ hi, List.getD_eq_getElem _ _
    (by rw [List.length_dropLast] at hi; omega)]
  exact List.getElem_dropLast l i hi

/-- `heappop` keeps the remaining heap well shaped. -/
theorem heappop_heapProp {α : Type} (lt : α → α → Bool) (d : α)
    (hirr : ∀ a, lt a a = false)
    (hntrans : ∀ a b c, lt a b = false → lt b c = false →
      lt a c = false)
    (hcomp : ∀ a b c, lt a c = true → lt b c = false →
      lt b a = false)
    (heap rest : List α) (ret : α) (hp : heapProp lt d heap)
    (hpop : heappop lt d heap = some (ret, rest)) :
    heapProp lt d rest := by
  unfold heappop at hpop
  cases hlast : heap.getLast? with
  | none =>
    rw [hlast] at hpop
    exact absurd hpop (by simp)
  | some lastelt =>
    rw [hlast] at hpop
    dsimp only at hpop
    by_cases hemp : heap.dropLast.isEmpty
    · rw [if_pos hemp] at hpop
      have hrest : heap.dropLast = rest :=
        congrArg Prod.snd (Option.some.inj hpop)
      rw [← hrest, List.isEmpty_iff.mp hemp]
      intro i hi hilen
      exact absurd hilen (by simp)
    · rw [if_neg hemp] at hpop
      have hrest : siftup lt d (heap.dropLast.set 0 lastelt) 0 0
          lastelt = rest :=
        congrArg Prod.snd (Option.some.inj hpop)
      have hnil : heap.dropLast ≠ [] := fun hc =>
        hemp (by rw [hc]; rfl)
      have hdlpos : 0 < heap.dropLast.length := List.length_pos.mpr hnil
      rw [← hrest]
      have hA0 : ∀ i, 0 < i →
          i < (heap.dropLast.set 0 lastelt).length → i ≠ 0 →
          (i - 1) / 2 ≠ 0 →
          lt ((heap.dropLast.set 0 lastelt).getD i d)
            ((heap.dropLast.set 0 lastelt).getD ((i - 1) / 2) d) =
            false := by
        intro i hi hilen hine hipar
        rw [List.length_set, List.length_dropLast] at hilen
        have hparlt : 0 < (i - 1) / 2 := Nat.pos_of_ne_zero hipar
        rw [getD_set_ne _ 0 i _ d (fun h => hine h.symm),
          getD_set_ne _ 0 ((i - 1) / 2) _ d (fun h => hipar h.symm),
          getD_dropLast heap i d (by rw [List.length_dropLast]; omega),
          getD_dropLast heap ((i - 1) / 2) d (by
            rw [List.length_dropLast]
            have := Nat.div_le_self (i - 1) 2
            omega)]
        exact hp i hi (by omega)
      have hsu := siftupGo_inv lt d hirr hcomp
        (heap.dropLast.set 0 lastelt).length
        (heap.dropLast.set 0 lastelt) 0
        (by rw [List.length_set]; exact hdlpos) (by omega)
        hA0 (by intro i _ _ _ h0; omega)
      have heq : siftup lt d (heap.dropLast.set 0 lastelt) 0 0 lastelt =
          siftdownGo lt d
            (siftupGo lt d (heap.dropLast.set 0 lastelt).length
              (heap.dropLast.set 0 lastelt) 0).2
            ((siftupGo lt d (heap.dropLast.set 0 lastelt).length
              (heap.dropLast.set 0 lastelt) 0).1.set
              (siftupGo lt d (heap.dropLast.set 0 lastelt).length
                (heap.dropLast.set 0 lastelt) 0).2 lastelt) 0
            (siftupGo lt d (heap.dropLast.set 0 lastelt).length
              (heap.dropLast.set 0 lastelt) 0).2 lastelt := rfl
      rw [heq]
      generalize hg : siftupGo lt d
        (heap.dropLast.set 0 lastelt).length
        (heap.dropLast.set 0 lastelt) 0 = P at hsu ⊢
      rw [List.length_set] at hsu
      refine siftdownGo_heapProp lt d hirr hntrans hcomp P.2
        (P.1.set P.2 lastelt) P.2 lastelt
        (by rw [List.length_set, hsu.1]; exact hsu.2.1)
        (Nat.le_refl _) ?_ ?_ ?_
      · intro i hi hilen hine hipar
        rw [List.length_set, hsu.1] at hilen
        rw [getD_set_ne _ _ i _ d (fun h => hine h.symm),
          getD_set_ne _ _ ((i - 1) / 2) _ d (fun h => hipar h.symm)]
        exact hsu.2.2.2 i hi hilen hine hipar
      · intro i hi hilen hipar
        exfalso
        rw [List.length_set, hsu.1] at hilen
        have hleaf := hsu.2.2.1
        omega
      · intro i hi hilen hipar _
        exfalso
        rw [List.length_set, hsu.1] at hilen
        have hleaf := hsu.2.2.1
        omega

/-- `heappop` returns an element no other heap element is less than. -/
theorem heappop_min {α : Type} (lt : α → α → Bool) (d : α)
    (hirr : ∀ a, lt a a = false)
    (hntrans : ∀ a b c, lt a b = false → lt b c = false →
      lt a c = false)
    (heap rest : List α) (ret : α) (hp : heapProp lt d heap)
    (hpop : heappop lt d heap = some (ret, rest)) :
    ∀ z ∈ heap, lt z ret = false := by
  have hne : heap ≠ [] := by
    intro hc
    rw [hc] at hpop
    exact absurd hpop (by simp [heappop])
  have hret : ret = heap.getD 0 d := by
    unfold heappop at hpop
    cases hlast : heap.getLast? with
    | none =>
      rw [hlast] at hpop
      exact absurd hpop (by simp)
    | some lastelt =>
      rw [hlast] at hpop
      dsimp only at hpop
      by_cases hemp : heap.dropLast.isEmpty
      · rw [if_pos hemp] at hpop
        have h1 : lastelt = ret :=
          congrArg Prod.fst (Option.some.inj hpop)
        have hsplit : heap.dropLast ++ [lastelt] = heap :=
          List.dropLast_append_getLast? lastelt hlast
        rw [List.isEmpty_iff.mp hemp] at hsplit
        rw [← h1, ← hsplit]
        rfl
      · rw [if_neg hemp] at hpop
        have h1 : heap.dropLast.getD 0 d = ret :=
          congrArg Prod.fst (Option.some.inj hpop)
        have hnil : heap.dropLast ≠ [] := fun hc =>
          hemp (by rw [hc]; rfl)
        have hdlpos : 0 < heap.dropLast.length :=
          List.length_pos.mpr hnil
        rw [← h1]
        exact getD_dropLast heap 0 d hdlpos
  intro z hz
  rcases List.mem_iff_getElem.mp hz with ⟨i, hi, hzi⟩
  have hmin := heapProp_root_min lt d hirr hntrans heap hp i hi
  rw [List.getD_eq_getElem _ _ hi, hzi] at hmin
  rw [hret]
  exact hmin

/-! ### The two Python orders satisfy the heap hypotheses -/

theorem tupLt_irrefl : ∀ a, tupLt a a = false := by
  intro ⟨c, x, y⟩
  simp [tupLt]

theorem tupLt_ntrans : ∀ a b c, tupLt a b = false → tupLt b c = false →
    tupLt a c = false := by
  intro ⟨a1, a2, a3⟩ ⟨b1, b2, b3⟩ ⟨c1, c2, c3⟩ h1 h2
  simp only [tupLt, decide_eq_false_iff_not] at h1 h2 ⊢
  push_neg at h1 h2 ⊢
  omega

theorem tupLt_comp : ∀ a b c, tupLt a c = true → tupLt b c = false →
    tupLt b a = false := by
  intro ⟨a1, a2, a3⟩ ⟨b1, b2, b3⟩ ⟨c1, c2, c3⟩ h1 h2
  simp only [tupLt, decide_eq_true_eq, decide_eq_false_iff_not]
    at h1 h2 ⊢
  push_neg at h2 ⊢
  omega

theorem blt_irrefl : ∀ a : ECost, ECost.blt a a = false := by
  intro a
  cases a <;> simp [ECost.blt]

theorem blt_ntrans : ∀ a b c : ECost, ECost.blt a b = false →
    ECost.blt b c = false → ECost.blt a c = false := by
  intro a b c h1 h2
  cases a <;> cases b <;> cases c <;>
    simp [ECost.blt] at h1 h2 ⊢ <;> omega

theorem blt_comp : ∀ a b c : ECost, ECost.blt a c = true →
    ECost.blt b c = false → ECost.blt b a = false := by
  intro a b c h1 h2
  cases a <;> cases b <;> cases c <;>
    simp [ECost.blt] at h1 h2 ⊢ <;> omega

theorem nodeLt_irrefl : ∀ a : Node, nodeLt a a = false := fun a =>
  blt_irrefl a.f

theorem nodeLt_ntrans : ∀ a b c : Node, nodeLt a b = false →
    nodeLt b c = false → nodeLt a c = false := fun a b c h1 h2 =>
  blt_ntrans a.f b.f c.f h1 h2

theorem nodeLt_comp : ∀ a b c : Node, nodeLt a c = true →
    nodeLt b c = false → nodeLt b a = false := fun a b c h1 h2 =>
  blt_comp a.f b.f c.f h1 h2

/-! ### Order facts about costs -/

theorem ECost.le_refl : ∀ a : ECost, a.le a := by
  intro a
  cases a <;> simp [ECost.le]

theorem ECost.le_trans : ∀ a b c : ECost, a.le b → b.le c → a.le c := by
  intro a b c h1 h2
  cases a <;> cases b <;> cases c <;>
    simp [ECost.le] at h1 h2 ⊢ <;> omega

theorem ECost.le_of_blt_false : ∀ a b : ECost,
    ECost.blt a b = false → b.le a := by
  intro a b h
  cases a <;> cases b <;> simp [ECost.blt] at h <;>
    simp [ECost.le] <;> omega

theorem ECost.fin_le_fin : ∀ a b : Int,
    (ECost.fin a).le (.fin b) ↔ a ≤ b := by
  intro a b
  simp [ECost.le]

/-! ### Indexing facts about walks -/

theorem walkCell_zero (s : Int × Int) (l : List (Int × Int)) :
    walkCell s l 0 = s := rfl

theorem walkCell_cons (s c : Int × Int) (t : List (Int × Int))
    (i : Nat) : walkCell s (c :: t) (i + 1) = walkCell c t i := by
  cases i with
  | zero => rfl
  | succ j => rfl

theorem walkPrefixCost_zero (grid : Grid) (l : List (Int × Int)) :
    walkPrefixCost grid l 0 = 0 := rfl

theorem walkPrefixCost_cons (grid : Grid) (c : Int × Int)
    (t : List (Int × Int)) (i : Nat) :
    walkPrefixCost grid (c :: t) (i + 1) =
      gridGet grid c.1 c.2 + walkPrefixCost grid t i := rfl

theorem isWalk_stepOK (grid : Grid) :
    ∀ (l : List (Int × Int)) (s e : Int × Int),
      isWalk grid s l e → ∀ i, i < l.length →
      stepOK grid (walkCell s l i) (walkCell s l (i + 1))
  | [], _, _, _, i, hi => absurd hi (by simp)
  | c :: t, s, e, hw, i, hi => by
    cases i with
    | zero =>
      rw [walkCell_zero, walkCell_cons, walkCell_zero]
      exact hw.1
    | succ j =>
      rw [walkCell_cons, walkCell_cons]
      exact isWalk_stepOK grid t c e hw.2 j (by simpa using hi)

theorem isWalk_last (grid : Grid) :
    ∀ (l : List (Int × Int)) (s e : Int × Int),
      isWalk grid s l e → walkCell s l l.length = e
  | [], s, e, hw => hw
  | c :: t, s, e, hw => by
    rw [List.length_cons, walkCell_cons]
    exact isWalk_last grid t c e hw.2

theorem walkPrefixCost_succ (grid : Grid) :
    ∀ (l : List (Int × Int)) (s : Int × Int) (i : Nat), i < l.length →
      walkPrefixCost grid l (i + 1) = walkPrefixCost grid l i +
        gridGet grid (walkCell s l (i + 1)).1 (walkCell s l (i + 1)).2
  | [], _, i, hi => absurd hi (by simp)
  | c :: t, s, i, hi => by
    cases i with
    | zero =>
      simp only [walkPrefixCost_cons, walkPrefixCost_zero,
        walkCell_cons, walkCell_zero]
      ring
    | succ j =>
      rw [walkPrefixCost_cons, walkPrefixCost_cons, walkCell_cons,
        walkPrefixCost_succ grid t c j (by simpa using hi)]
      ring

theorem walkCost_eq_prefix_len (grid : Grid) (l : List (Int × Int)) :
    walkCost grid l = walkPrefixCost grid l l.length := by
  rw [walkPrefixCost, List.take_length]

/-- Prefix costs are monotone when every entered cell costs at least 1. -/
theorem walkPrefixCost_mono (grid : Grid)
    (hw1 : ∀ c : Int × Int, passable grid c →
      1 ≤ gridGet grid c.1 c.2)
    (l : List (Int × Int)) (s e : Int × Int) (hw : isWalk grid s l e) :
    ∀ i j, i ≤ j → j ≤ l.length →
      walkPrefixCost grid l i ≤ walkPrefixCost grid l j := by
  intro i j hij hj
  induction j with
  | zero =>
    have hi0 : i = 0 := by omega
    rw [hi0]
  | succ j2 ih =>
    rcases Nat.lt_or_ge i (j2 + 1) with hlt | hge
    · have hstep := walkPrefixCost_succ grid l s j2 (by omega)
      have hcell := isWalk_stepOK grid l s e hw j2 (by omega)
      have hw2 := hw1 _ hcell.2
      have := ih (by omega) (by omega)
      omega
    · have hieq : i = j2 + 1 := by omega
      rw [hieq]

/-- Appending one legal move to a walk. -/
theorem isWalk_append (grid : Grid) :
    ∀ (l : List (Int × Int)) (s e v : Int × Int),
      isWalk grid s l e → stepOK grid e v → isWalk grid s (l ++ [v]) v
  | [], s, e, v, hw, hstep => by
    have hse : s = e := hw
    subst hse
    exact ⟨hstep, rfl⟩
  | c :: t, s, e, v, hw, hstep =>
    ⟨hw.1, isWalk_append grid t c e v hw.2 hstep⟩

theorem walkCost_append (grid : Grid) :
    ∀ (l : List (Int × Int)) (v : Int × Int),
      walkCost grid (l ++ [v]) = walkCost grid l +
        gridGet grid v.1 v.2
  | [], v => by simp [walkCost]
  | c :: t, v => by
    rw [List.cons_append, walkCost, walkCost,
      walkCost_append grid t v]
    ring

/-- A reachability fact yields a concrete walk. -/
theorem reachable_isWalk (grid : Grid) (s e : Int × Int)
    (h : Reachable grid s e) :
    ∃ l : List (Int × Int), isWalk grid s l e := by
  induction h with
  | refl => exact ⟨[], rfl⟩
  | tail hab hbc ih =>
    rcases ih with ⟨l, hl⟩
    exact ⟨l ++ [_], isWalk_append grid l s _ _ hl hbc⟩

/-! ### Quantitative facts about the oracle's relaxation -/

theorem ECost.le_of_blt_true : ∀ a b : ECost,
    ECost.blt a b = true → a.le b := by
  intro a b h
  cases a <;> cases b <;> simp [ECost.blt] at h <;>
    simp [ECost.le] <;> omega

theorem tupLt_false_le (a b : Int × (Int × Int))
    (h : tupLt a b = false) : b.1 ≤ a.1 := by
  obtain ⟨a1, a2, a3⟩ := a
  obtain ⟨b1, b2, b3⟩ := b
  simp only [tupLt, decide_eq_false_iff_not] at h
  push_neg at h
  omega

/-- A relaxation never increases a discovered cost. -/
theorem findRelax_le (grid : Grid) (cost : Int) (x y : Int)
    (qv : List (Int × (Int × Int)) × ((Int × Int) → ECost))
    (dm : Int × Int) (c : Int × Int) :
    ECost.le ((findRelax grid cost x y qv dm).2 c) (qv.2 c) := by
  unfold findRelax
  dsimp only
  split
  next =>
    split
    next hblt =>
      by_cases hceq : c = (x + dm.1, y + dm.2)
      · subst hceq
        simp only [if_pos rfl]
        exact ECost.le_of_blt_true _ _ hblt
      · simp only [if_neg hceq]
        exact ECost.le_refl _
    next => exact ECost.le_refl _
  next => exact ECost.le_refl _

/-- The whole relaxation step never increases a discovered cost. -/
theorem findStep_le (grid : Grid) (cost : Int) (x y : Int)
    (qv : List (Int × (Int × Int)) × ((Int × Int) → ECost))
    (c : Int × Int) :
    ECost.le ((findStep grid cost x y qv).2 c) (qv.2 c) := by
  unfold findStep
  refine foldl_pred_mem (findRelax grid cost x y)
    (fun qv2 => ECost.le (qv2.2 c) (qv.2 c)) possible_moves ?_ qv
    (ECost.le_refl _)
  intro acc b _ hacc
  exact ECost.le_trans _ _ _ (findRelax_le grid cost x y acc b c) hacc

/-- Relaxing towards a passable neighbour bounds its discovered cost by
the relaxation value. -/
theorem findRelax_covers_le (grid : Grid) (cost : Int) (x y : Int)
    (qv : List (Int × (Int × Int)) × ((Int × Int) → ECost))
    (dm : Int × Int) (hok : passable grid (x + dm.1, y + dm.2)) :
    ECost.le ((findRelax grid cost x y qv dm).2 (x + dm.1, y + dm.2))
      (.fin (cost + gridGet grid (x + dm.1) (y + dm.2))) := by
  unfold findRelax
  dsimp only
  rw [if_pos ((passable_iff_cond grid (x + dm.1) (y + dm.2)).mpr hok)]
  split
  next =>
    simp only [if_pos rfl]
    exact ECost.le_refl _
  next hblt =>
    exact ECost.le_of_blt_false _ _ (by simpa using hblt)

/-- The whole relaxation step bounds each passable neighbour's discovered
cost by the popped cost plus that neighbour's cell cost. -/
theorem findStep_covers_le (grid : Grid) (cost : Int) (x y : Int)
    (qv : List (Int × (Int × Int)) × ((Int × Int) → ECost))
    (v : Int × Int) (hv : stepOK grid (x, y) v) :
    ECost.le ((findStep grid cost x y qv).2 v)
      (.fin (cost + gridGet grid v.1 v.2)) := by
  have hpick : ∃ dm ∈ possible_moves, v = (x + dm.1, y + dm.2) := by
    rcases adjacent_cases (x, y) v hv.1 with h | h | h | h
    · exact ⟨(1, 0), by simp [possible_moves], by simpa using h⟩
    · exact ⟨(-1, 0), by simp [possible_moves], by simpa using h⟩
    · exact ⟨(0, 1), by simp [possible_moves], by simpa using h⟩
    · exact ⟨(0, -1), by simp [possible_moves], by simpa using h⟩
  rcases hpick with ⟨dm, hdm, hveq⟩
  subst hveq
  unfold findStep
  refine foldl_obligation (findRelax grid cost x y)
    (fun dm2 qv2 => passable grid (x + dm2.1, y + dm2.2) →
      ECost.le (qv2.2 (x + dm2.1, y + dm2.2))
        (.fin (cost + gridGet grid (x + dm2.1) (y + dm2.2)))) ?_
    possible_moves qv dm hdm ?_ hv.2
  · intro b acc b2 hr hp
    exact ECost.le_trans _ _ _ (findRelax_le grid cost x y acc b2 _)
      (hr hp)
  · intro acc2 hp
    exact findRelax_covers_le grid cost x y acc2 dm hp

/-- Any change the relaxation step makes to the discovered map is
mirrored by a queue entry carrying exactly the new value. -/
theorem findStep_update_key (grid : Grid) (cost : Int) (x y : Int)
    (qv : List (Int × (Int × Int)) × ((Int × Int) → ECost))
    (c : Int × Int) :
    (findStep grid cost x y qv).2 c = qv.2 c ∨
    ∃ e ∈ (findStep grid cost x y qv).1, e.2 = c ∧
      ECost.fin e.1 = (findStep grid cost x y qv).2 c := by
  unfold findStep
  refine foldl_pred_mem (findRelax grid cost x y)
    (fun qv2 => qv2.2 c = qv.2 c ∨
      ∃ e ∈ qv2.1, e.2 = c ∧ ECost.fin e.1 = qv2.2 c)
    possible_moves ?_ qv (Or.inl rfl)
  intro acc dm _ hacc
  have hone : (findRelax grid cost x y acc dm).2 c = acc.2 c ∨
      ∃ e ∈ (findRelax grid cost x y acc dm).1, e.2 = c ∧
        ECost.fin e.1 = (findRelax grid cost x y acc dm).2 c := by
    unfold findRelax
    dsimp only
    split
    next =>
      split
      next =>
        by_cases hceq : c = (x + dm.1, y + dm.2)
        · right
          refine ⟨(cost + gridGet grid (x + dm.1) (y + dm.2),
            (x + dm.1, y + dm.2)),
            (heappush_mem_iff tupLt dTup acc.1 _ _).mpr (Or.inl rfl),
            hceq.symm, ?_⟩
          simp [hceq]
        · left
          simp [hceq]
      next => exact Or.inl rfl
    next => exact Or.inl rfl
  rcases hone with hsame | ⟨e, he, hec, hkey⟩
  · rcases hacc with h1 | ⟨e, he, hec, hkey⟩
    · exact Or.inl (hsame.trans h1)
    · exact Or.inr ⟨e, findRelax_queue_grow grid cost x y acc dm e he,
        hec, hkey.trans hsame.symm⟩
  · exact Or.inr ⟨e, he, hec, hkey⟩

/-- The relaxation step keeps the queue a well-shaped heap. -/
theorem findStep_heapProp (grid : Grid) (cost : Int) (x y : Int)
    (qv : List (Int × (Int × Int)) × ((Int × Int) → ECost))
    (hh : heapProp tupLt dTup qv.1) :
    heapProp tupLt dTup (findStep grid cost x y qv).1 := by
  unfold findStep
  refine foldl_pred_mem (findRelax grid cost x y)
    (fun qv2 => heapProp tupLt dTup qv2.1) possible_moves ?_ qv hh
  intro acc dm _ hacc
  unfold findRelax
  dsimp only
  split
  next =>
    split
    next =>
      exact heappush_heapProp tupLt dTup tupLt_irrefl tupLt_ntrans
        tupLt_comp acc.1 _ hacc
    next => exact hacc
  next => exact hacc

/-- The relaxation step keeps every queue entry backed by an actual walk
of exactly its cost. -/
theorem findStep_sound (grid : Grid) (startc : Int × Int) (cost : Int)
    (x y : Int)
    (qv : List (Int × (Int × Int)) × ((Int × Int) → ECost))
    (hq : ∀ e ∈ qv.1, ∃ l, isWalk grid startc l e.2 ∧
      walkCost grid l = e.1)
    (hxy : ∃ l, isWalk grid startc l (x, y) ∧ walkCost grid l = cost) :
    ∀ e ∈ (findStep grid cost x y qv).1,
      ∃ l, isWalk grid startc l e.2 ∧ walkCost grid l = e.1 := by
  unfold findStep
  refine foldl_pred_mem (findRelax grid cost x y)
    (fun qv2 => ∀ e ∈ qv2.1, ∃ l, isWalk grid startc l e.2 ∧
      walkCost grid l = e.1) possible_moves ?_ qv hq
  intro acc dm hdm hacc e
  unfold findRelax
  dsimp only
  split
  next hcond =>
    split
    next =>
      intro he
      rcases (heappush_mem_iff tupLt dTup acc.1 _ e).mp he with
        rfl | he2
      · rcases hxy with ⟨l0, hl0, hc0⟩
        refine ⟨l0 ++ [(x + dm.1, y + dm.2)], ?_, ?_⟩
        · exact isWalk_append grid l0 startc (x, y) _ hl0
            ⟨move_adjacent x y dm hdm,
             (passable_iff_cond grid _ _).mp hcond⟩
        · rw [walkCost_append, hc0]
      · exact hacc e he2
    next => exact hacc e
  next => exact hacc e

/-- If the oracle returns a finite cost, that cost is the cost of an
actual walk from start to goal. -/
theorem findLoop_sound (grid : Grid) (startc endc : Int × Int) :
    ∀ (fuel : Nat) (queue : List (Int × (Int × Int)))
      (visited : (Int × Int) → ECost) (k : Int),
      (∀ e ∈ queue, ∃ l, isWalk grid startc l e.2 ∧
        walkCost grid l = e.1) →
      findLoop grid endc fuel queue visited = some (.fin k) →
      ∃ l, isWalk grid startc l endc ∧ walkCost grid l = k
  | 0, _, _, k, _, h => by
    rw [findLoop] at h
    exact absurd h (by simp)
  | fuel + 1, queue, visited, k, hq, h => by
    rw [findLoop] at h
    cases hpop : heappop tupLt dTup queue with
    | none =>
      rw [hpop] at h
      exact absurd h (by simp)
    | some pr =>
      obtain ⟨⟨cost2, xy⟩, rest⟩ := pr
      rw [hpop] at h
      dsimp only at h
      have hxy : ∃ l, isWalk grid startc l xy ∧ walkCost grid l =
          cost2 :=
        hq (cost2, xy) ((heappop_mem_iff tupLt dTup queue rest
          (cost2, xy) hpop (cost2, xy)).mpr (Or.inl rfl))
      by_cases hend : xy = endc
      · rw [if_pos hend] at h
        have hk : cost2 = k := by
          have := Option.some.inj h
          exact ECost.fin.inj this
        rw [← hend, ← hk]
        exact hxy
      · rw [if_neg hend] at h
        have hrest : ∀ e ∈ rest, ∃ l, isWalk grid startc l e.2 ∧
            walkCost grid l = e.1 := fun e he =>
          hq e ((heappop_mem_iff tupLt dTup queue rest (cost2, xy)
            hpop e).mpr (Or.inr he))
        exact findLoop_sound grid startc endc fuel _ _ k
          (findStep_sound grid startc cost2 xy.1 xy.2 (rest, visited)
            hrest (by simpa using hxy)) h

theorem ECost.le_fin_mono (a : ECost) (p q : Int) (h : a.le (.fin p))
    (hpq : p ≤ q) : a.le (.fin q) := by
  cases a <;> simp [ECost.le] at h ⊢ <;> omega

/-- Walking down the fixed walk: from a well-costed cell, either some
walk cell has a good queue entry, or the final cell is well costed. -/
theorem walk_chain_aux (grid : Grid) (startc : Int × Int)
    (l : List (Int × Int)) (queue : List (Int × (Int × Int)))
    (visited : (Int × Int) → ECost)
    (hQ : ∀ i, i ≤ l.length →
      ECost.le (visited (walkCell startc l i))
        (.fin (walkPrefixCost grid l i)) →
      ((∃ e ∈ queue, e.2 = walkCell startc l i ∧
          e.1 ≤ walkPrefixCost grid l i) ∨
       i = l.length ∨
       ECost.le (visited (walkCell startc l (i + 1)))
         (.fin (walkPrefixCost grid l (i + 1))))) :
    ∀ (dcount i : Nat), i + dcount = l.length →
      ECost.le (visited (walkCell startc l i))
        (.fin (walkPrefixCost grid l i)) →
      ((∃ j, j ≤ l.length ∧ ∃ e ∈ queue, e.2 = walkCell startc l j ∧
          e.1 ≤ walkPrefixCost grid l j) ∨
       ECost.le (visited (walkCell startc l l.length))
         (.fin (walkPrefixCost grid l l.length)))
  | 0, i, hin, hgood => by
    have hieq : i = l.length := by omega
    rw [← hieq]
    exact Or.inr hgood
  | dcount + 1, i, hin, hgood => by
    rcases hQ i (by omega) hgood with ⟨e, he, hec, hek⟩ | heq | hnext
    · exact Or.inl ⟨i, by omega, e, he, hec, hek⟩
    · exact absurd heq (by omega)
    · exact walk_chain_aux grid startc l queue visited hQ dcount
        (i + 1) (by omega) hnext

/-- The oracle's loop never returns more than the cost of any fixed walk
to the goal, under its running invariants: the queue is a well-shaped
heap; every walk cell already discovered within its prefix cost has a
good queue entry, is the last, or has pushed a good cost to its
successor; the start is discovered at cost 0; and a discovered goal has
a matching queue entry. -/
theorem findLoop_lower (grid : Grid) (startc endc : Int × Int)
    (hw1 : ∀ c : Int × Int, passable grid c →
      1 ≤ gridGet grid c.1 c.2)
    (l : List (Int × Int)) (hwalk : isWalk grid startc l endc) :
    ∀ (fuel : Nat) (queue : List (Int × (Int × Int)))
      (visited : (Int × Int) → ECost),
      heapProp tupLt dTup queue →
      (∀ i, i ≤ l.length →
        ECost.le (visited (walkCell startc l i))
          (.fin (walkPrefixCost grid l i)) →
        ((∃ e ∈ queue, e.2 = walkCell startc l i ∧
            e.1 ≤ walkPrefixCost grid l i) ∨
         i = l.length ∨
         ECost.le (visited (walkCell startc l (i + 1)))
           (.fin (walkPrefixCost grid l (i + 1))))) →
      ECost.le (visited startc) (.fin 0) →
      (∀ k2, visited endc = .fin k2 →
        ∃ e ∈ queue, e.2 = endc ∧ e.1 ≤ k2) →
      ∀ k, findLoop grid endc fuel queue visited = some (.fin k) →
      k ≤ walkCost grid l
  | 0, _, _, _, _, _, _, k, h => by
    rw [findLoop] at h
    exact absurd h (by simp)
  | fuel + 1, queue, visited, hheap, hQ, h0, hR, k, h => by
    rw [findLoop] at h
    cases hpop : heappop tupLt dTup queue with
    | none =>
      rw [hpop] at h
      exact absurd h (by simp)
    | some pr =>
      obtain ⟨⟨cost2, xy⟩, rest⟩ := pr
      rw [hpop] at h
      dsimp only at h
      have hmin := heappop_min tupLt dTup tupLt_irrefl tupLt_ntrans
        queue rest (cost2, xy) hheap hpop
      by_cases hend : xy = endc
      · rw [if_pos hend] at h
        have hk : cost2 = k := ECost.fin.inj (Option.some.inj h)
        have hgood0 : ECost.le (visited (walkCell startc l 0))
            (.fin (walkPrefixCost grid l 0)) := by
          rw [walkCell_zero, walkPrefixCost_zero]
          exact h0
        have hm : walkCost grid l = walkPrefixCost grid l l.length :=
          walkCost_eq_prefix_len grid l
        rcases walk_chain_aux grid startc l queue visited hQ
          l.length 0 (by omega) hgood0 with
          ⟨j, hj, e, he, hec, hek⟩ | hlast
        · have hle := tupLt_false_le e (cost2, xy) (hmin e he)
          have hmono := walkPrefixCost_mono grid hw1 l startc endc
            hwalk j l.length hj (Nat.le_refl _)
          omega
        · have hcell : walkCell startc l l.length = endc :=
            isWalk_last grid l startc endc hwalk
          rw [hcell] at hlast
          cases hv : visited endc with
          | fin k2 =>
            rw [hv] at hlast
            rw [ECost.fin_le_fin] at hlast
            rcases hR k2 hv with ⟨e, he, hec, hek⟩
            have hle := tupLt_false_le e (cost2, xy) (hmin e he)
            omega
          | inf =>
            rw [hv] at hlast
            exact absurd hlast (by simp [ECost.le])
      · rw [if_neg hend] at h
        have hpopmem := heappop_mem_iff tupLt dTup queue rest
          (cost2, xy) hpop
        have hQ2 : ∀ i, i ≤ l.length →
            ECost.le ((findStep grid cost2 xy.1 xy.2
              (rest, visited)).2 (walkCell startc l i))
              (.fin (walkPrefixCost grid l i)) →
            ((∃ e ∈ (findStep grid cost2 xy.1 xy.2
                (rest, visited)).1, e.2 = walkCell startc l i ∧
                e.1 ≤ walkPrefixCost grid l i) ∨
             i = l.length ∨
             ECost.le ((findStep grid cost2 xy.1 xy.2
               (rest, visited)).2 (walkCell startc l (i + 1)))
               (.fin (walkPrefixCost grid l (i + 1)))) := by
          intro i hi hgood2
          by_cases hold : ECost.le (visited (walkCell startc l i))
              (.fin (walkPrefixCost grid l i))
          · rcases hQ i hi hold with ⟨e, he, hec, hek⟩ | heq | hnext
            · rcases (hpopmem e).mp he with rfl | herest
              · have hxycell : xy = walkCell startc l i := hec
                rcases Nat.lt_or_ge i l.length with hilt | hige
                · right
                  right
                  have hstep := isWalk_stepOK grid l startc endc
                    hwalk i hilt
                  rw [← hxycell] at hstep
                  have hcov := findStep_covers_le grid cost2 xy.1 xy.2
                    (rest, visited) (walkCell startc l (i + 1))
                    (by simpa using hstep)
                  have hsucc := walkPrefixCost_succ grid l startc i
                    hilt
                  refine ECost.le_fin_mono _ _ _ hcov ?_
                  omega
                · exact Or.inr (Or.inl (by omega))
              · exact Or.inl ⟨e, findStep_queue_grow grid cost2 xy.1
                  xy.2 (rest, visited) e herest, hec, hek⟩
            · exact Or.inr (Or.inl heq)
            · right
              right
              exact ECost.le_trans _ _ _
                (findStep_le grid cost2 xy.1 xy.2 (rest, visited) _)
                hnext
          · rcases findStep_update_key grid cost2 xy.1 xy.2
              (rest, visited) (walkCell startc l i) with
              hsame | ⟨e, he, hec, hkey⟩
            · rw [hsame] at hgood2
              exact absurd hgood2 hold
            · left
              refine ⟨e, he, hec, ?_⟩
              rw [← hkey] at hgood2
              exact (ECost.fin_le_fin _ _).mp hgood2
        have h02 : ECost.le ((findStep grid cost2 xy.1 xy.2
            (rest, visited)).2 startc) (.fin 0) :=
          ECost.le_trans _ _ _
            (findStep_le grid cost2 xy.1 xy.2 (rest, visited) startc)
            h0
        have hR2 : ∀ k2, (findStep grid cost2 xy.1 xy.2
            (rest, visited)).2 endc = .fin k2 →
            ∃ e ∈ (findStep grid cost2 xy.1 xy.2 (rest, visited)).1,
              e.2 = endc ∧ e.1 ≤ k2 := by
          intro k2 hv2
          rcases findStep_update_key grid cost2 xy.1 xy.2
            (rest, visited) endc with hsame | ⟨e, he, hec, hkey⟩
          · rw [hsame] at hv2
            rcases hR k2 hv2 with ⟨e, he, hec, hek⟩
            rcases (hpopmem e).mp he with rfl | herest
            · exact absurd hec hend
            · exact ⟨e, findStep_queue_grow grid cost2 xy.1 xy.2
                (rest, visited) e herest, hec, hek⟩
          · rw [hv2] at hkey
            exact ⟨e, he, hec, by
              have := ECost.fin.inj hkey
              omega⟩
        exact findLoop_lower grid startc endc hw1 l hwalk fuel _ _
          (findStep_heapProp grid cost2 xy.1 xy.2 (rest, visited)
            (heappop_heapProp tupLt dTup tupLt_irrefl tupLt_ntrans
              tupLt_comp queue rest (cost2, xy) hheap hpop))
          hQ2 h02 hR2 k h

/-! ### Quantitative facts about the engine's relaxation -/

theorem ECost.add_le_fin (a : ECost) (p q : Int) (h : a.le (.fin p)) :
    (a.add (.fin q)).le (.fin (p + q)) := by
  cases a with
  | fin v =>
    simp only [ECost.le] at h
    simp only [ECost.add, ECost.le]
    omega
  | inf => exact absurd h (by simp [ECost.le])

theorem ECost.add_fin_zero (a : ECost) (ha : a ≠ .inf) :
    a.add (.fin 0) = a := by
  cases a with
  | fin v => simp [ECost.add]
  | inf => exact absurd rfl ha

theorem ECost.exists_fin (a : ECost) (ha : a ≠ .inf) :
    ∃ v, a = .fin v := by
  cases a with
  | fin v => exact ⟨v, rfl⟩
  | inf => exact absurd rfl ha

theorem heuristic_nonneg (endc : Int × Int) (x y : Int) :
    0 ≤ heuristic endc x y := by
  unfold heuristic
  positivity

theorem heuristic_self (endc : Int × Int) :
    heuristic endc endc.1 endc.2 = 0 := by
  unfold heuristic
  simp

theorem heuristic_adjacent (endc : Int × Int) (a b : Int × Int)
    (h : adjacent a b) :
    heuristic endc a.1 a.2 ≤ heuristic endc b.1 b.2 + 1 := by
  unfold heuristic
  unfold adjacent at h
  omega

/-- Every generated neighbour carries its own cell's cost. -/
theorem get_neighbors_cost (grid : Grid) (node : Node) :
    ∀ nb ∈ get_neighbors grid node,
      nb.cost = gridGet grid nb.x nb.y := by
  intro nb hnb
  unfold get_neighbors at hnb
  rcases List.mem_filterMap.mp hnb with ⟨dm, _, hf⟩
  dsimp only at hf
  split at hf
  next =>
    have hnb2 := Option.some.inj hf
    rw [← hnb2]
    simp [Node.x, Node.y, Node.cost]
  next => exact absurd hf (by simp)

/-- The engine's relaxation step keeps the open set a well-shaped heap. -/
theorem astarStep_heapProp (grid : Grid) (endc : Int × Int)
    (current : Node) (rest : List Node) (closed : List (Int × Int))
    (hh : heapProp nodeLt dNode rest) :
    heapProp nodeLt dNode (astarStep grid endc current rest closed) := by
  unfold astarStep
  refine foldl_pred_mem (astarRelax grid endc current closed)
    (fun os => heapProp nodeLt dNode os) (get_neighbors grid current)
    ?_ rest hh
  intro acc nb _ hacc
  unfold astarRelax
  split
  next => exact hacc
  next =>
    dsimp only
    split
    next =>
      exact heappush_heapProp nodeLt dNode nodeLt_irrefl nodeLt_ntrans
        nodeLt_comp acc _ hacc
    next => exact hacc

/-- Every open node's `f` is exactly `g` plus its own heuristic, except
for the start-shaped node whose `g` and `f` are both 0. -/
theorem astarStep_fx (grid : Grid) (endc : Int × Int) (current : Node)
    (rest : List Node) (closed : List (Int × Int))
    (hrest : ∀ nd ∈ rest,
      nd.f = nd.g.add (.fin (heuristic endc nd.x nd.y)) ∨
      (nd.g = .fin 0 ∧ nd.f = .fin 0)) :
    ∀ nd ∈ astarStep grid endc current rest closed,
      nd.f = nd.g.add (.fin (heuristic endc nd.x nd.y)) ∨
      (nd.g = .fin 0 ∧ nd.f = .fin 0) := by
  unfold astarStep
  refine foldl_mem_preserve _ (astarRelax grid endc current closed)
    (get_neighbors grid current) rest ?_ hrest
  intro nb _ acc hacc nd hnd
  revert hnd
  unfold astarRelax
  split
  next => exact fun hnd => hacc nd hnd
  next =>
    dsimp only
    split
    next =>
      intro hnd
      rcases (heappush_mem_iff nodeLt dNode acc _ nd).mp hnd with
        rfl | hnd2
      · left
        simp [Node.f, Node.g, Node.x, Node.y]
      · exact hacc nd hnd2
    next => exact fun hnd => hacc nd hnd

/-- After expanding a node with finite `g`, each generated neighbour is
closed or present in the open set with `g` exactly the expansion base
plus the neighbour's cell cost. -/
theorem astarStep_covers_g (grid : Grid) (endc : Int × Int)
    (current : Node) (rest : List Node) (closed : List (Int × Int))
    (hcur : current.g ≠ .inf) :
    ∀ nb ∈ get_neighbors grid current,
      (nb.x, nb.y) ∈ closed ∨
      ∃ nd ∈ astarStep grid endc current rest closed,
        (nd.x, nd.y) = (nb.x, nb.y) ∧
        nd.g = current.g.add (.fin nb.cost) := by
  intro nb hnb
  unfold astarStep
  refine foldl_obligation (astarRelax grid endc current closed)
    (fun nb2 os => (nb2.x, nb2.y) ∈ closed ∨
      ∃ nd ∈ os, (nd.x, nd.y) = (nb2.x, nb2.y) ∧
        nd.g = current.g.add (.fin nb2.cost)) ?_
    (get_neighbors grid current) rest nb hnb ?_
  · intro b acc b2 hr
    rcases hr with h1 | ⟨nd, hnd, hco, hg⟩
    · exact Or.inl h1
    · exact Or.inr ⟨nd, astarRelax_grow grid endc current closed acc b2
        nd hnd, hco, hg⟩
  · intro acc2
    unfold astarRelax
    split
    next hmem => exact Or.inl hmem
    next hmem =>
      dsimp only
      rw [if_pos]
      · right
        refine ⟨.mk nb.x nb.y nb.cost (current.g.add (.fin nb.cost))
          (heuristic endc nb.x nb.y)
          ((current.g.add (.fin nb.cost)).add
            (.fin (heuristic endc nb.x nb.y))) (some current),
          (heappush_mem_iff nodeLt dNode acc2 _ _).mpr (Or.inl rfl),
          by simp [Node.x, Node.y], by simp [Node.g]⟩
      · have hg := (get_neighbors_spec grid current nb hnb).2.2
        rw [hg]
        cases hfin : current.g.add (.fin nb.cost) with
        | fin n => simp [ECost.blt]
        | inf => exact absurd hfin (ECost_add_fin_ne_inf current.g
            nb.cost hcur)

/-- Along a walk, prefix cost plus the Manhattan heuristic is monotone
(the heuristic is consistent for cell costs at least 1). -/
theorem walk_f_mono (grid : Grid) (endc : Int × Int)
    (hw1 : ∀ c : Int × Int, passable grid c →
      1 ≤ gridGet grid c.1 c.2)
    (l : List (Int × Int)) (startc : Int × Int)
    (hwalk : isWalk grid startc l endc) :
    ∀ i j, i ≤ j → j ≤ l.length →
      walkPrefixCost grid l i +
        heuristic endc (walkCell startc l i).1
          (walkCell startc l i).2 ≤
      walkPrefixCost grid l j +
        heuristic endc (walkCell startc l j).1
          (walkCell startc l j).2 := by
  intro i j hij hj
  induction j with
  | zero =>
    have hi0 : i = 0 := by omega
    rw [hi0]
  | succ j2 ih =>
    rcases Nat.lt_or_ge i (j2 + 1) with hlt | hge
    · have hstep := isWalk_stepOK grid l startc endc hwalk j2
        (by omega)
      have hsucc := walkPrefixCost_succ grid l startc j2 (by omega)
      have htri := heuristic_adjacent endc (walkCell startc l j2)
        (walkCell startc l (j2 + 1)) hstep.1
      have hwge := hw1 _ hstep.2
      have hih := ih (by omega) (by omega)
      omega
    · have hieq : i = j2 + 1 := by omega
      rw [hieq]

/-- From a closed walk cell expanded at a good base, walking forward
along closed walk cells reaches a first unclosed walk cell that has a
well-costed open node. -/
theorem walk_frontier (grid : Grid) (startc endc : Int × Int)
    (l : List (Int × Int)) (hwalk : isWalk grid startc l endc)
    (closed : List (Int × Int)) (os : List Node) (gs : Nat → Int)
    (hNE : endc ∉ closed)
    (hPC : ∀ i, i ≤ l.length → walkCell startc l i ∈ closed →
      gs i ≤ walkPrefixCost grid l i ∧
      (i < l.length → (walkCell startc l (i + 1) ∈ closed ∨
        ∃ nd ∈ os, (nd.x, nd.y) = walkCell startc l (i + 1) ∧
          ECost.le nd.g (.fin (gs i +
            gridGet grid (walkCell startc l (i + 1)).1
              (walkCell startc l (i + 1)).2))))) :
    ∀ (dcount a : Nat), a + dcount = l.length →
      walkCell startc l a ∈ closed →
      ∃ b, a < b ∧ b ≤ l.length ∧ walkCell startc l b ∉ closed ∧
        (∀ i2, a < i2 → i2 < b → walkCell startc l i2 ∈ closed) ∧
        ∃ nd ∈ os, (nd.x, nd.y) = walkCell startc l b ∧
          ECost.le nd.g (.fin (walkPrefixCost grid l b))
  | 0, a, hin, hclosed => by
    exfalso
    have haeq : a = l.length := by omega
    rw [haeq, isWalk_last grid l startc endc hwalk] at hclosed
    exact hNE hclosed
  | dcount + 1, a, hin, hclosed => by
    have halt : a < l.length := by omega
    rcases hPC a (by omega) hclosed with ⟨hgs, hsuc⟩
    by_cases hnext : walkCell startc l (a + 1) ∈ closed
    · rcases walk_frontier grid startc endc l hwalk closed os gs hNE
        hPC dcount (a + 1) (by omega) hnext with
        ⟨b, hab, hbn, hbnc, hbpre, nd, hndm, hndc, hndg⟩
      refine ⟨b, by omega, hbn, hbnc, ?_, nd, hndm, hndc, hndg⟩
      intro i2 hi2a hi2b
      rcases Nat.lt_or_ge (a + 1) i2 with hgt | hle
      · exact hbpre i2 hgt hi2b
      · have heq : i2 = a + 1 := by omega
        rw [heq]
        exact hnext
    · rcases hsuc halt with hc1 | ⟨nd, hndm, hndc, hndg⟩
      · exact absurd hc1 hnext
      · refine ⟨a + 1, by omega, by omega, hnext,
          fun i2 h1 h2 => absurd h1 (by omega), nd, hndm, hndc, ?_⟩
        have hsucc := walkPrefixCost_succ grid l startc a halt
        refine ECost.le_fin_mono _ _ _ hndg ?_
        omega

/-- The engine's loop never returns more than the cost of any fixed walk
to the goal, under its running invariants (well-shaped heap; exact or
start-shaped `f`; finite `g`; goal never closed; a first-unclosed
frontier walk cell well costed on the open set; closed walk cells
expanded at good bases propagating to their successors). -/
theorem astarLoop_lower (grid : Grid) (startc endc : Int × Int)
    (hw1 : ∀ c : Int × Int, passable grid c →
      1 ≤ gridGet grid c.1 c.2)
    (l : List (Int × Int)) (hwalk : isWalk grid startc l endc) :
    ∀ (fuel : Nat) (os : List Node) (closed : List (Int × Int))
      (gs : Nat → Int),
      heapProp nodeLt dNode os →
      (∀ nd ∈ os, nd.f = nd.g.add (.fin (heuristic endc nd.x nd.y)) ∨
        (nd.g = .fin 0 ∧ nd.f = .fin 0)) →
      (∀ nd ∈ os, nd.g ≠ .inf) →
      endc ∉ closed →
      (∃ j, j ≤ l.length ∧
        (∀ i2, i2 < j → walkCell startc l i2 ∈ closed) ∧
        walkCell startc l j ∉ closed ∧
        ∃ nd ∈ os, (nd.x, nd.y) = walkCell startc l j ∧
          ECost.le nd.g (.fin (walkPrefixCost grid l j))) →
      (∀ i, i ≤ l.length → walkCell startc l i ∈ closed →
        gs i ≤ walkPrefixCost grid l i ∧
        (i < l.length → (walkCell startc l (i + 1) ∈ closed ∨
          ∃ nd ∈ os, (nd.x, nd.y) = walkCell startc l (i + 1) ∧
            ECost.le nd.g (.fin (gs i +
              gridGet grid (walkCell startc l (i + 1)).1
                (walkCell startc l (i + 1)).2))))) →
      ∀ p c, astarLoop grid endc fuel os closed = some (p, c) →
      ∃ kk, c = .fin kk ∧ kk ≤ walkCost grid l
  | 0, _, _, _, _, _, _, _, _, _, _, _, h => by
    rw [astarLoop] at h
    exact absurd h (by simp)
  | fuel + 1, os, closed, gs, hheap, hfx, hgf, hNE, hW, hPC, p, c,
      h => by
    rw [astarLoop] at h
    rcases hW with ⟨j, hjn, hpre, hjnc, ndw, hwmem, hwco, hwg⟩
    cases hpop : heappop nodeLt dNode os with
    | none =>
      exfalso
      rw [heappop_eq_none nodeLt dNode os hpop] at hwmem
      exact absurd hwmem (by simp)
    | some pr =>
      obtain ⟨current, rest⟩ := pr
      rw [hpop] at h
      dsimp only at h
      have hpopmem := heappop_mem_iff nodeLt dNode os rest current hpop
      have hcuros : current ∈ os := (hpopmem current).mpr (Or.inl rfl)
      have hmin := heappop_min nodeLt dNode nodeLt_irrefl nodeLt_ntrans
        os rest current hheap hpop
      rcases ECost.exists_fin current.g (hgf current hcuros) with
        ⟨gc, hgc⟩
      have hm0 : 0 ≤ walkPrefixCost grid l j := by
        have := walkPrefixCost_mono grid hw1 l startc endc hwalk 0 j
          (by omega) hjn
        rw [walkPrefixCost_zero] at this
        omega
      have hfw : ECost.le ndw.f (.fin (walkPrefixCost grid l j +
          heuristic endc (walkCell startc l j).1
            (walkCell startc l j).2)) := by
        rcases hfx ndw hwmem with hfe | ⟨hg0, hf0⟩
        · rw [hfe]
          have hx : ndw.x = (walkCell startc l j).1 := by
            have := congrArg Prod.fst hwco
            simpa using this
          have hy : ndw.y = (walkCell startc l j).2 := by
            have := congrArg Prod.snd hwco
            simpa using this
          rw [hx, hy]
          exact ECost.add_le_fin _ _ _ hwg
        · rw [hf0]
          rw [ECost.fin_le_fin]
          have := heuristic_nonneg endc (walkCell startc l j).1
            (walkCell startc l j).2
          omega
      have hfcur : ECost.le current.f (.fin (walkPrefixCost grid l j +
          heuristic endc (walkCell startc l j).1
            (walkCell startc l j).2)) :=
        ECost.le_trans _ _ _
          (ECost.le_of_blt_false _ _ (hmin ndw hwmem)) hfw
      have hgc_unclosed : ∀ i, i ≤ l.length →
          walkCell startc l i = (current.x, current.y) →
          walkCell startc l i ∉ closed →
          gc ≤ walkPrefixCost grid l i := by
        intro i hi hcelli hinc
        have hji : j ≤ i := by
          by_contra hc
          exact hinc (hpre i (by omega))
        have hmono := walk_f_mono grid endc hw1 l startc hwalk j i hji
          hi
        rcases hfx current hcuros with hfe | ⟨hg0, _⟩
        · rw [hfe, hgc] at hfcur
          have hx : current.x = (walkCell startc l i).1 := by
            have := congrArg Prod.fst hcelli
            simpa using this.symm
          have hy : current.y = (walkCell startc l i).2 := by
            have := congrArg Prod.snd hcelli
            simpa using this.symm
          rw [hx, hy] at hfcur
          simp only [ECost.add, ECost.fin_le_fin] at hfcur
          omega
        · rw [hg0] at hgc
          have : gc = 0 := by
            have := ECost.fin.inj hgc.symm
            omega
          rw [this]
          have := walkPrefixCost_mono grid hw1 l startc endc hwalk 0 i
            (by omega) hi
          rw [walkPrefixCost_zero] at this
          omega
      by_cases hend : (current.x, current.y) = endc
      · rw [if_pos hend] at h
        have hinj := Option.some.inj h
        have hc2 : current.g = c := congrArg Prod.snd hinj
        have hcellend : walkCell startc l l.length = endc :=
          isWalk_last grid l startc endc hwalk
        have hbound : gc ≤ walkCost grid l := by
          have hmono := walk_f_mono grid endc hw1 l startc hwalk j
            l.length hjn (Nat.le_refl _)
          have hhend : heuristic endc (walkCell startc l l.length).1
              (walkCell startc l l.length).2 = 0 := by
            rw [hcellend]
            exact heuristic_self endc
          rcases hfx current hcuros with hfe | ⟨hg0, _⟩
          · rw [hfe, hgc] at hfcur
            have hx : current.x = endc.1 := by
              have := congrArg Prod.fst hend
              simpa using this
            have hy : current.y = endc.2 := by
              have := congrArg Prod.snd hend
              simpa using this
            rw [hx, hy, heuristic_self endc] at hfcur
            simp only [ECost.add, ECost.fin_le_fin] at hfcur
            rw [walkCost_eq_prefix_len grid l]
            omega
          · rw [hg0] at hgc
            have hgc0 : gc = 0 := by
              have := ECost.fin.inj hgc.symm
              omega
            rw [hgc0, walkCost_eq_prefix_len grid l]
            have := walkPrefixCost_mono grid hw1 l startc endc hwalk 0
              l.length (by omega) (Nat.le_refl _)
            rw [walkPrefixCost_zero] at this
            omega
        exact ⟨gc, by rw [← hc2, hgc], hbound⟩
      · rw [if_neg hend] at h
        have hrestfx : ∀ nd ∈ rest,
            nd.f = nd.g.add (.fin (heuristic endc nd.x nd.y)) ∨
            (nd.g = .fin 0 ∧ nd.f = .fin 0) := fun nd hnd =>
          hfx nd ((hpopmem nd).mpr (Or.inr hnd))
        have hrestgf : ∀ nd ∈ rest, nd.g ≠ .inf := fun nd hnd =>
          hgf nd ((hpopmem nd).mpr (Or.inr hnd))
        have hcurgne : current.g ≠ .inf := hgf current hcuros
        have hHH2 := astarStep_heapProp grid endc current rest
          ((current.x, current.y) :: closed)
          (heappop_heapProp nodeLt dNode nodeLt_irrefl nodeLt_ntrans
            nodeLt_comp os rest current hheap hpop)
        have hFX2 := astarStep_fx grid endc current rest
          ((current.x, current.y) :: closed) hrestfx
        have hGF2 := astarStep_gfin grid endc current rest
          ((current.x, current.y) :: closed) hcurgne hrestgf
        have hNE2 : endc ∉ (current.x, current.y) :: closed := by
          intro hmem
          rcases List.mem_cons.mp hmem with h1 | h1
          · exact hend h1.symm
          · exact hNE h1
        have hPC2 : ∀ i, i ≤ l.length →
            walkCell startc l i ∈ (current.x, current.y) :: closed →
            (fun i2 => if walkCell startc l i2 ∈ closed then gs i2
              else gc) i ≤ walkPrefixCost grid l i ∧
            (i < l.length →
              (walkCell startc l (i + 1) ∈
                (current.x, current.y) :: closed ∨
              ∃ nd ∈ astarStep grid endc current rest
                ((current.x, current.y) :: closed),
                (nd.x, nd.y) = walkCell startc l (i + 1) ∧
                ECost.le nd.g (.fin ((fun i2 =>
                  if walkCell startc l i2 ∈ closed then gs i2
                  else gc) i +
                  gridGet grid (walkCell startc l (i + 1)).1
                    (walkCell startc l (i + 1)).2)))) := by
          intro i hi hic2
          by_cases hicold : walkCell startc l i ∈ closed
          · simp only [if_pos hicold]
            rcases hPC i hi hicold with ⟨hgs, hsuc⟩
            refine ⟨hgs, ?_⟩
            intro hilt
            rcases hsuc hilt with hc1 | ⟨nd, hndm, hndc, hndg⟩
            · exact Or.inl (List.mem_cons_of_mem _ hc1)
            · by_cases hc1 : walkCell startc l (i + 1) =
                  (current.x, current.y)
              · exact Or.inl (by rw [hc1]; exact
                  List.mem_cons_self _ _)
              · have hndne : nd ≠ current := by
                  intro hcontra
                  rw [hcontra] at hndc
                  exact hc1 hndc.symm
                have hndrest : nd ∈ rest := by
                  rcases (hpopmem nd).mp hndm with h1 | h1
                  · exact absurd h1 hndne
                  · exact h1
                exact Or.inr ⟨nd, astarStep_grows grid endc current
                  rest _ nd hndrest, hndc, hndg⟩
          · have hcx : walkCell startc l i = (current.x, current.y) :=
              by
              rcases List.mem_cons.mp hic2 with h1 | h1
              · exact h1
              · exact absurd h1 hicold
            simp only [if_neg hicold]
            refine ⟨hgc_unclosed i hi hcx hicold, ?_⟩
            intro hilt
            have hstep := isWalk_stepOK grid l startc endc hwalk i
              hilt
            rw [hcx] at hstep
            rcases get_neighbors_complete grid current
              (walkCell startc l (i + 1)) (by simpa using hstep) with
              ⟨nb, hnb, hnbco⟩
            rcases astarStep_covers_g grid endc current rest
              ((current.x, current.y) :: closed) hcurgne nb hnb with
              h1 | ⟨nd, hndm, hndc, hndg⟩
            · rw [hnbco] at h1
              exact Or.inl h1
            · right
              refine ⟨nd, hndm, by rw [hndc, hnbco], ?_⟩
              have hcost := get_neighbors_cost grid current nb hnb
              have hxn : nb.x = (walkCell startc l (i + 1)).1 := by
                have := congrArg Prod.fst hnbco
                simpa using this
              have hyn : nb.y = (walkCell startc l (i + 1)).2 := by
                have := congrArg Prod.snd hnbco
                simpa using this
              rw [hndg, hgc, hcost, hxn, hyn]
              simp only [ECost.add, ECost.fin_le_fin]
              omega
        have hW2 : ∃ j2, j2 ≤ l.length ∧
            (∀ i2, i2 < j2 → walkCell startc l i2 ∈
              (current.x, current.y) :: closed) ∧
            walkCell startc l j2 ∉ (current.x, current.y) :: closed ∧
            ∃ nd ∈ astarStep grid endc current rest
              ((current.x, current.y) :: closed),
              (nd.x, nd.y) = walkCell startc l j2 ∧
              ECost.le nd.g (.fin (walkPrefixCost grid l j2)) := by
          by_cases hcxj : walkCell startc l j = (current.x, current.y)
          · have hjlt : j < l.length := by
              rcases Nat.lt_or_ge j l.length with h1 | h1
              · exact h1
              · exfalso
                have hjeq : j = l.length := by omega
                rw [hjeq, isWalk_last grid l startc endc hwalk]
                  at hcxj
                exact hend hcxj.symm
            by_cases hnext : walkCell startc l (j + 1) ∈
                (current.x, current.y) :: closed
            · rcases walk_frontier grid startc endc l hwalk
                ((current.x, current.y) :: closed)
                (astarStep grid endc current rest
                  ((current.x, current.y) :: closed))
                (fun i2 => if walkCell startc l i2 ∈ closed then gs i2
                  else gc) hNE2 hPC2 (l.length - (j + 1)) (j + 1)
                (by omega) hnext with
                ⟨b, hab, hbn, hbnc, hbpre, nd, hndm, hndc, hndg⟩
              refine ⟨b, hbn, ?_, hbnc, nd, hndm, hndc, hndg⟩
              intro i2 hi2
              rcases Nat.lt_or_ge i2 j with h1 | h1
              · exact List.mem_cons_of_mem _ (hpre i2 h1)
              · rcases Nat.lt_or_ge i2 (j + 1) with h2 | h2
                · have : i2 = j := by omega
                  rw [this, hcxj]
                  exact List.mem_cons_self _ _
                · rcases Nat.lt_or_ge (j + 1) i2 with h3 | h3
                  · exact hbpre i2 h3 hi2
                  · have : i2 = j + 1 := by omega
                    rw [this]
                    exact hnext
            · have hstep := isWalk_stepOK grid l startc endc hwalk j
                hjlt
              rw [hcxj] at hstep
              rcases get_neighbors_complete grid current
                (walkCell startc l (j + 1)) (by simpa using hstep)
                with ⟨nb, hnb, hnbco⟩
              rcases astarStep_covers_g grid endc current rest
                ((current.x, current.y) :: closed) hcurgne nb hnb with
                h1 | ⟨nd, hndm, hndc, hndg⟩
              · rw [hnbco] at h1
                exact absurd h1 hnext
              · refine ⟨j + 1, by omega, ?_, hnext, nd, hndm,
                  by rw [hndc, hnbco], ?_⟩
                · intro i2 hi2
                  rcases Nat.lt_or_ge i2 j with h1 | h1
                  · exact List.mem_cons_of_mem _ (hpre i2 h1)
                  · have : i2 = j := by omega
                    rw [this, hcxj]
                    exact List.mem_cons_self _ _
                · have hcost := get_neighbors_cost grid current nb hnb
                  have hxn : nb.x = (walkCell startc l (j + 1)).1 := by
                    have := congrArg Prod.fst hnbco
                    simpa using this
                  have hyn : nb.y = (walkCell startc l (j + 1)).2 := by
                    have := congrArg Prod.snd hnbco
                    simpa using this
                  have hsucc := walkPrefixCost_succ grid l startc j
                    hjlt
                  have hgcm : gc ≤ walkPrefixCost grid l j :=
                    hgc_unclosed j hjn hcxj hjnc
                  rw [hndg, hgc, hcost, hxn, hyn]
                  simp only [ECost.add, ECost.fin_le_fin]
                  omega
          · have hndwne : ndw ≠ current := by
              intro hcontra
              rw [hcontra] at hwco
              exact hcxj hwco.symm
            have hndwrest : ndw ∈ rest := by
              rcases (hpopmem ndw).mp hwmem with h1 | h1
              · exact absurd h1 hndwne
              · exact h1
            refine ⟨j, hjn, ?_, ?_, ndw,
              astarStep_grows grid endc current rest _ ndw hndwrest,
              hwco, hwg⟩
            · intro i2 hi2
              exact List.mem_cons_of_mem _ (hpre i2 hi2)
            · intro hmem
              rcases List.mem_cons.mp hmem with h1 | h1
              · exact hcxj h1
              · exact hjnc h1
        exact astarLoop_lower grid startc endc hw1 l hwalk fuel _ _ _
          hHH2 hFX2 hGF2 hNE2 hW2 hPC2 p c h

/-- The engine's neighbour loop keeps the walk-cost invariant of the open
set: every pushed node's `g` is the cost of extending the expanded node's
walk by the entered neighbour cell. -/
theorem astarStep_gWalkOK (grid : Grid) (startc endc : Int × Int)
    (current : Node) (rest : List Node) (closed : List (Int × Int))
    (hcur : gWalkOK grid startc current)
    (hrest : ∀ z ∈ rest, gWalkOK grid startc z) :
    ∀ z ∈ astarStep grid endc current rest closed,
      gWalkOK grid startc z := by
  unfold astarStep
  refine foldl_mem_preserve _ _ (get_neighbors grid current) rest
    ?_ hrest
  intro nb hnb acc hacc z hz
  unfold astarRelax at hz
  split at hz
  next => exact hacc z hz
  next =>
    dsimp only at hz
    split at hz
    next =>
      rw [heappush_mem_iff] at hz
      rcases hz with rfl | hz
      · rcases hcur with ⟨l, hl, hg⟩
        have hspec := get_neighbors_spec grid current nb hnb
        have hcost := get_neighbors_cost grid current nb hnb
        refine ⟨l ++ [(nb.x, nb.y)], ?_, ?_⟩
        · exact isWalk_append grid l startc _ _ hl
            ⟨hspec.1, hspec.2.1⟩
        · show current.g.add (.fin nb.cost) =
            ECost.fin (walkCost grid (l ++ [(nb.x, nb.y)]))
          rw [walkCost_append grid l (nb.x, nb.y), hg, hcost,
            ECost.add]
      · exact hacc z hz
    next => exact hacc z hz

/-- Every finite cost the engine's loop returns is the cost of an actual
walk from the start to the goal, as long as every open node's `g` is
backed by such a walk to its own coordinates. -/
theorem astarLoop_gsound (grid : Grid) (startc endc : Int × Int) :
    ∀ (fuel : Nat) (os : List Node) (closed : List (Int × Int)),
      (∀ z ∈ os, gWalkOK grid startc z) →
      ∀ (p : Option (List (Int × Int))) (k : Int),
      astarLoop grid endc fuel os closed = some (p, .fin k) →
      ∃ l, isWalk grid startc l endc ∧ walkCost grid l = k
  | 0, _, _, _, _, k, h => by
    rw [astarLoop] at h
    exact absurd h (by simp)
  | fuel + 1, os, closed, hos, p, k, h => by
    rw [astarLoop] at h
    cases hpop : heappop nodeLt dNode os with
    | none =>
      rw [hpop] at h
      dsimp only at h
      have := (Prod.mk.injEq _ _ _ _).mp (Option.some.inj h) |>.2
      exact absurd this (by simp)
    | some pr =>
      obtain ⟨current, rest⟩ := pr
      rw [hpop] at h
      dsimp only at h
      by_cases hend : (current.x, current.y) = endc
      · rw [if_pos hend] at h
        have hg := (Prod.mk.injEq _ _ _ _).mp (Option.some.inj h) |>.2
        rcases hos current ((heappop_mem_iff nodeLt dNode os rest
          current hpop current).mpr (Or.inl rfl)) with ⟨l, hl, hgl⟩
        rw [hend] at hl
        refine ⟨l, hl, ?_⟩
        rw [hgl] at hg
        exact ECost.fin.inj hg
      · rw [if_neg hend] at h
        have hcur : gWalkOK grid startc current :=
          hos current ((heappop_mem_iff nodeLt dNode os rest current
            hpop current).mpr (Or.inl rfl))
        have hrest : ∀ z ∈ rest, gWalkOK grid startc z := fun z hz =>
          hos z ((heappop_mem_iff nodeLt dNode os rest current hpop
            z).mpr (Or.inr hz))
        exact astarLoop_gsound grid startc endc fuel
          (astarStep grid endc current rest ((current.x, current.y)
            :: closed)) ((current.x, current.y) :: closed)
          (astarStep_gWalkOK grid startc endc current rest _ hcur
            hrest) p k h

/-- C1: on a rectangular grid whose cells are the sentinel `-1` or cost
at least `1`, with in-bounds start and end and the end reachable from the
start, whenever both searches terminate the engine's reported cost equals
the oracle's reported cost. -/
theorem c1_optimality (grid : Grid) (startc endc : Int × Int)
    (hrect : ∀ row ∈ grid, (row.length : Int) = colsOf grid)
    (hcells : ∀ row ∈ grid, ∀ v ∈ row, v = -1 ∨ 1 ≤ v)
    (_hs : inBounds grid startc) (_he : inBounds grid endc)
    (hreach : Reachable grid startc endc)
    (f1 f2 : Nat) (p : Option (List (Int × Int))) (c1 c2 : ECost)
    (h1 : astar_correct grid startc endc f1 = some (p, c1))
    (h2 : find_optimal_cost grid startc endc f2 = some c2) :
    c1 = c2 := by
  have hw1 : ∀ c : Int × Int, passable grid c →
      1 ≤ gridGet grid c.1 c.2 := by
    intro c hc
    obtain ⟨⟨hx0, hxr, hy0, hyc⟩, hne⟩ := hc
    unfold rowsOf at hxr
    have hxlt : c.1.toNat < grid.length := by omega
    have hrowmem : grid.getD c.1.toNat [] ∈ grid := by
      rw [List.getD_eq_getElem _ _ hxlt]
      exact List.getElem_mem _
    have hlen := hrect _ hrowmem
    rw [← hlen] at hyc
    have hylt : c.2.toNat < (grid.getD c.1.toNat []).length := by
      omega
    have hvmem : (grid.getD c.1.toNat []).getD c.2.toNat 0 ∈
        grid.getD c.1.toNat [] := by
      rw [List.getD_eq_getElem _ _ hylt]
      exact List.getElem_mem _
    unfold gridGet at hne ⊢
    rcases hcells _ hrowmem _ hvmem with hv | hv
    · exact absurd hv hne
    · exact hv
  have h1' : astarLoop grid endc f1
      [Node.mk startc.1 startc.2 (gridGet grid startc.1 startc.2)
        (.fin 0) 0 (.fin 0) none] [] = some (p, c1) := h1
  have h2' : findLoop grid endc f2 [(0, startc)]
      (fun c => if c = startc then ECost.fin 0 else .inf) =
      some c2 := h2
  have hc2fin : ∃ k2, c2 = .fin k2 := by
    cases hc2 : c2 with
    | fin k2 => exact ⟨k2, rfl⟩
    | inf =>
      exfalso
      rw [hc2] at h2'
      refine (findLoop_exhaust grid endc f2 _ _ ?_ ?_ h2' startc
        (by simp)) hreach
      · intro cc hcc
        by_cases hceq : cc = startc
        · exact Or.inl ⟨(0, startc), List.mem_singleton_self _,
            hceq.symm⟩
        · rw [if_neg hceq] at hcc
          exact absurd rfl hcc
      · intro hinf
        by_cases hceq : endc = startc
        · exact ⟨(0, startc), List.mem_singleton_self _, hceq.symm⟩
        · rw [if_neg hceq] at hinf
          exact absurd rfl hinf
  obtain ⟨k2, hc2⟩ := hc2fin
  rw [hc2] at h2'
  obtain ⟨lo, hlo, hlok⟩ := findLoop_sound grid startc endc f2 _ _ k2
    (by
      intro e he
      simp only [List.mem_singleton] at he
      rw [he]
      exact ⟨[], rfl, rfl⟩) h2'
  obtain ⟨kk, hc1, hkklo⟩ := astarLoop_lower grid startc endc hw1 lo
    hlo f1
    [Node.mk startc.1 startc.2 (gridGet grid startc.1 startc.2)
      (.fin 0) 0 (.fin 0) none] [] (fun _ => 0)
    (by
      intro i hi1 hi2
      simp at hi2
      exact absurd hi1 (by omega))
    (by
      intro nd hnd
      simp only [List.mem_singleton] at hnd
      rw [hnd]
      exact Or.inr ⟨rfl, rfl⟩)
    (by
      intro nd hnd
      simp only [List.mem_singleton] at hnd
      rw [hnd]
      simp [Node.g])
    (by simp)
    (by
      refine ⟨0, Nat.zero_le _, fun i2 hi2 => absurd hi2 (by omega),
        by simp, ?_⟩
      refine ⟨_, List.mem_singleton_self _, ?_, ?_⟩
      · rw [walkCell_zero]
        exact rfl
      · dsimp only [Node.g]
        rw [walkPrefixCost_zero]
        exact (ECost.fin_le_fin 0 0).mpr (le_refl 0))
    (by
      intro i hi hic
      exact absurd hic (by simp))
    p c1 h1'
  rw [hc1] at h1'
  obtain ⟨le2, hle, hlek⟩ := astarLoop_gsound grid startc endc f1
    [Node.mk startc.1 startc.2 (gridGet grid startc.1 startc.2)
      (.fin 0) 0 (.fin 0) none] []
    (by
      intro z hz
      simp only [List.mem_singleton] at hz
      rw [hz]
      exact ⟨[], rfl, rfl⟩)
    p kk h1'
  have hk2le : k2 ≤ walkCost grid le2 :=
    findLoop_lower grid startc endc hw1 le2 hle f2 [(0, startc)]
      (fun c => if c = startc then ECost.fin 0 else .inf)
      (by
        intro i hi1 hi2
        simp at hi2
        exact absurd hi1 (by omega))
      (by
        intro i hi hvis
        by_cases hcell : walkCell startc le2 i = startc
        · refine Or.inl ⟨(0, startc), List.mem_singleton_self _,
            hcell.symm, ?_⟩
          have := walkPrefixCost_mono grid hw1 le2 startc endc hle 0 i
            (Nat.zero_le _) hi
          rw [walkPrefixCost_zero] at this
          exact this
        · dsimp only at hvis
          rw [if_neg hcell] at hvis
          simp [ECost.le] at hvis)
      (by simp [ECost.le])
      (by
        intro k2' hv
        dsimp only at hv
        by_cases hceq : endc = startc
        · rw [if_pos hceq] at hv
          have hk0 := ECost.fin.inj hv
          exact ⟨(0, startc), List.mem_singleton_self _, hceq.symm,
            by omega⟩
        · rw [if_neg hceq] at hv
          exact absurd hv (by simp))
      k2 h2'
  rw [hc1, hc2]
  have hkeq : kk = k2 := by omega
  rw [hkeq]

/-- C1 witness: on the 5×5 all-ones grid from `(0, 0)` to the reachable
`(4, 4)`, with ample fuel, both searches report the cost `8`. -/
theorem c1_optimality_witness :
    Reachable ones5 (0, 0) (4, 4) ∧ (ECost.fin 8 = ECost.fin 8) := by
  have hre : Reachable ones5 (0, 0) (4, 4) :=
    Relation.ReflTransGen.tail (Relation.ReflTransGen.tail
      (Relation.ReflTransGen.tail (Relation.ReflTransGen.tail
        (Relation.ReflTransGen.tail (Relation.ReflTransGen.tail
          (Relation.ReflTransGen.tail (Relation.ReflTransGen.single
            (⟨by decide, by decide⟩ : stepOK ones5 (0, 0) (1, 0)))
            (⟨by decide, by decide⟩ : stepOK ones5 (1, 0) (2, 0)))
          (⟨by decide, by decide⟩ : stepOK ones5 (2, 0) (3, 0)))
        (⟨by decide, by decide⟩ : stepOK ones5 (3, 0) (4, 0)))
      (⟨by decide, by decide⟩ : stepOK ones5 (4, 0) (4, 1)))
      (⟨by decide, by decide⟩ : stepOK ones5 (4, 1) (4, 2)))
      (⟨by decide, by decide⟩ : stepOK ones5 (4, 2) (4, 3)))
      (⟨by decide, by decide⟩ : stepOK ones5 (4, 3) (4, 4))
  refine ⟨hre, ?_⟩
  exact c1_optimality ones5 (0, 0) (4, 4) (by decide) (by decide)
    (by decide) (by decide) hre 40 40
    (some [(0, 0), (1, 0), (2, 0), (2, 1), (3, 1), (3, 2), (4, 2),
      (4, 3), (4, 4)]) (.fin 8) (.fin 8) (by decide) (by decide)

end AStarAssist
